import Mathlib

/-!
Verification of the SDL3-header → Mojo translator (`gen.py`).

The development shallowly embeds the translator's pure core: the enum
value/base counters (`translate_enum_type`, `translate_enum`), the
conditional enum-member translation (`translate_enum_if`), the
documentation formatter (`format_docstring`, `format_docblock`,
`doc_template`), the function-prototype translation
(`translate_function` and its templates) and the struct field pipeline
(`split_multifield`, `translate_struct`, `translate_typedef_struct`).

Python strings are modelled as Lean `String` (lists of characters);
fallible Python code (exceptions) returns `Except PyErr`.  Regular
expressions of the source are embedded as explicit character scanners
whose semantics follow the concrete pattern they model; each scanner's
doc comment names the pattern.  All definitions are structurally
recursive (scanners that consume more than one character at a time take
an explicit fuel argument equal to the input length) so that concrete
runs reduce inside the kernel.
-/

set_option maxRecDepth 100000

/-- Python exceptions that the embedded code can raise. -/
inductive PyErr where
  | indexError
  | typeError
deriving DecidableEq, Repr

/-! ## Character and string primitives -/

/-- Word characters of the regex class `\w` (ASCII inputs). -/
def isWordChar (c : Char) : Bool := c.isAlphanum || c == '_'

/-- Index of the first occurrence of `pat` in `s`, if any. -/
def subIdx? (pat : List Char) : List Char → Option Nat
  | [] => if pat.isEmpty then some 0 else none
  | c :: cs => if pat.isPrefixOf (c :: cs) then some 0 else (subIdx? pat cs).map (· + 1)

/-- Python's substring test `pat in s`. -/
def containsSub (s pat : String) : Bool := (subIdx? pat.data s.data).isSome

/-- Fueled worker for `pyReplace`; the fuel is the input length (each
step consumes at least one character for the non-empty patterns used). -/
def replaceFuel (pat repl : List Char) : Nat → List Char → List Char
  | 0, s => s
  | _ + 1, [] => []
  | fuel + 1, c :: cs =>
    if pat.isPrefixOf (c :: cs) then repl ++ replaceFuel pat repl fuel (List.drop pat.length (c :: cs))
    else c :: replaceFuel pat repl fuel cs

/-- Python's `str.replace`: every non-overlapping occurrence of `pat`,
found left to right, is replaced by `repl` (used only with non-empty
patterns). -/
def pyReplace (s pat repl : String) : String := ⟨replaceFuel pat.data repl.data s.data.length s.data⟩

/-- Python's whitespace set for `str.strip` (ASCII). -/
def isPyWsp (c : Char) : Bool :=
  c == ' ' || c == '\t' || c == '\n' || c == '\r' || c == '\x0b' || c == '\x0c'

/-- Python's `str.strip()`. -/
def pyStrip (s : String) : String :=
  ⟨((s.data.dropWhile isPyWsp).reverse.dropWhile isPyWsp).reverse⟩

/-- Python's `str.strip(' ')`: spaces only are removed at both ends. -/
def stripSpaces (l : List Char) : List Char :=
  ((l.dropWhile (· == ' ')).reverse.dropWhile (· == ' ')).reverse

/-- Python's `str.find` over characters: first index of `pat`, `-1` if absent. -/
def pyFind (s pat : List Char) : Int :=
  match subIdx? pat s with
  | some i => (i : Int)
  | none => -1

/-- Python's slice `s[:i]` (a negative bound counts from the end). -/
def pySliceTo (s : List Char) (i : Int) : List Char :=
  let j := if i < 0 then i + (s.length : Int) else i
  s.take (max j 0).toNat

/-- Python's slice `s[i:]` (a negative bound counts from the end). -/
def pySliceFrom (s : List Char) (i : Int) : List Char :=
  let j := if i < 0 then i + (s.length : Int) else i
  s.drop (max j 0).toNat

/-- Python's single-element indexing `s[i]`: a negative index counts from
the end, and an index out of range raises `IndexError`. -/
def pyIndexChar (s : List Char) (i : Int) : Except PyErr Char :=
  let j := if i < 0 then i + (s.length : Int) else i
  if j < 0 then .error .indexError
  else if h : j.toNat < s.length then .ok (s.get ⟨j.toNat, h⟩) else .error .indexError

/-- Split into lines, each line keeping its terminating newline; the last
chunk has none (splitting the empty text yields one empty line). -/
def splitLinesAux (acc : List Char) : List Char → List (List Char)
  | [] => [acc.reverse]
  | c :: cs => if c == '\n' then (acc.reverse ++ ['\n']) :: splitLinesAux [] cs else splitLinesAux (c :: acc) cs

/-- Lines of a text, newline terminators kept. -/
def splitLines (s : List Char) : List (List Char) := splitLinesAux [] s

/-! ## `snake_case` and `capitalize` (gen.py lines 79-83) -/

/-- Worker for `snake_case`: `re.sub('([a-z])([A-Z])', r'\1_\2', s).lower()`.
The sub never matches at the second character of a previous match (that
character is uppercase), so consuming one character at a time is exact. -/
def snakeChars : List Char → List Char
  | [] => []
  | [c] => [c.toLower]
  | a :: b :: rest =>
    if a.isLower && b.isUpper then a.toLower :: '_' :: snakeChars (b :: rest)
    else a.toLower :: snakeChars (b :: rest)

/-- The source's `snake_case`. -/
def snake_case (s : String) : String := ⟨snakeChars s.data⟩

/-- The source's `capitalize`: upper-case the first character, keep the
rest (both branches of the Python conditional agree on this for the
inputs' lengths, since `str.capitalize` only lower-cases the — empty —
tail in the short branch). -/
def capitalize (s : String) : String :=
  match s.data with
  | [] => ""
  | c :: cs => ⟨c.toUpper :: cs⟩

/-! ## The docstring pipeline (gen.py lines 183-240) -/

/-- One line of `re.sub(match_docblock_indent, '', s)` with
`match_docblock_indent = r'^ *\* ?'` (MULTILINE): leading spaces, a `*`
and at most one following space are removed from the start of a line;
a line without the `*` is left alone. -/
def stripIndentLine (l : List Char) : List Char :=
  match l.dropWhile (· == ' ') with
  | '*' :: ' ' :: r2 => r2
  | '*' :: r => r
  | _ => l

/-- The source's `re.sub(match_docblock_indent, '', s)`. -/
def stripDocIndent (s : String) : String := ⟨((splitLines s.data).map stripIndentLine).flatten⟩

/-- Recognize the start of a doc category per
`match_docblock_category = r'^\\(?P<cat>\w+) (?P<body>[^\n]*\n?(?: [^\n]*\n)*)'`:
a line beginning with a backslash, a non-empty word and a space.  Yields
the category name and the first body chunk (the rest of the line,
newline included). -/
def catParse? (l : List Char) : Option (List Char × List Char) :=
  match l with
  | '\\' :: rest =>
    let w := rest.takeWhile isWordChar
    match w, rest.drop w.length with
    | [], _ => none
    | _, ' ' :: body => some (w, body)
    | _, _ => none
  | _ => none

/-- A continuation line of a category body: it starts with a space and is
newline-terminated (the pattern `(?: [^\n]*\n)`). -/
def isContLine (l : List Char) : Bool :=
  match l with
  | ' ' :: _ => l.getLast? == some '\n'
  | _ => false

/-- Line scanner for `re.sub(match_docblock_category, repl, s)`.  `repl`
maps a threaded state, the category name and the collected body to the
replacement text and the next state (the stateless removal uses `Unit`,
the translating version threads Python's `first_param`). -/
def catScanAux {σ : Type} (repl : σ → List Char → List Char → List Char × σ) :
    σ → Option (List Char × List Char) → List (List Char) → List Char
  | _, none, [] => []
  | st, some (cat, body), [] => (repl st cat body).1
  | st, none, l :: ls =>
    match catParse? l with
    | some p => catScanAux repl st (some p) ls
    | none => l ++ catScanAux repl st none ls
  | st, some (cat, body), l :: ls =>
    if isContLine l then catScanAux repl st (some (cat, body ++ l)) ls
    else
      match catParse? l with
      | some p => (repl st cat body).1 ++ catScanAux repl (repl st cat body).2 (some p) ls
      | none => (repl st cat body).1 ++ l ++ catScanAux repl (repl st cat body).2 none ls

/-- The source's `re.sub(match_docblock_category, '', s)` used by
`format_docblock` and `format_comblock`. -/
def removeCategories (s : String) : String :=
  ⟨catScanAux (fun _ _ _ => ([], ())) () none (splitLines s.data)⟩

/-- Scanner for `re.sub(r'\n +', '\n' + pad, s)`: each newline followed
by a non-empty run of spaces becomes a newline followed by `pad`. -/
def reindentAux (pad : List Char) : Bool → List Char → List Char
  | _, [] => []
  | skip, c :: cs =>
    if skip && c == ' ' then reindentAux pad true cs
    else if c == '\n' && cs.head? == some ' ' then '\n' :: (pad ++ reindentAux pad true cs)
    else c :: reindentAux pad false cs

/-- The source's `re.sub(r'\n +', '\n' + pad, s)`. -/
def reindent (pad : List Char) (s : List Char) : List Char := reindentAux pad false s

/-- The closure `translate_category` of `format_docstring` (gen.py lines
199-216): `param` renders an indented `Args:` entry (snake-cased name,
capitalized body, continuation lines re-indented), `returns` and
`threadsafety` render their sections, anything else becomes the empty
string.  The Bool is the `first_param` flag threaded through the sub. -/
def translate_category (first_param : Bool) (cat body : List Char) : List Char × Bool :=
  if cat = "param".data then
    let first_space := pyFind body [' ']
    let name := snakeChars (pySliceTo body first_space)
    let b1 := (capitalize ⟨stripSpaces (pySliceFrom body first_space)⟩).data
    let b2 := reindent (List.replicate (name.length + 6) ' ') b1
    ((if first_param then "Args:\n".data else []) ++ "    ".data ++ name ++ ": ".data ++ b2, false)
  else if cat = "returns".data then
    ("\nReturns:\n    ".data ++ reindent "    ".data (capitalize ⟨body⟩).data, first_param)
  else if cat = "threadsafety".data then
    ("Safety:\n    ".data ++ reindent "    ".data (capitalize ⟨body⟩).data, first_param)
  else ([], first_param)

/-- The source's `re.sub(match_docblock_category, translate_category, s)`
with `first_param` initially true. -/
def subCatTranslate (s : String) : String :=
  ⟨catScanAux translate_category true none (splitLines s.data)⟩

/-- Consume a run of spaces followed by one newline (one `' *\n'` step of
the blank-line pattern); `none` when the text ahead is not of that form. -/
def dropSpacesNl : List Char → Option (List Char)
  | [] => none
  | c :: cs => if c == ' ' then dropSpacesNl cs else if c == '\n' then some cs else none

/-- Fueled scanner for `re.sub(r'\n *\n *\n', r'\n\n', s)`. -/
def collapseFuel : Nat → List Char → List Char
  | 0, s => s
  | _ + 1, [] => []
  | fuel + 1, c :: cs =>
    if c == '\n' then
      match dropSpacesNl cs with
      | some r1 =>
        match dropSpacesNl r1 with
        | some r2 => '\n' :: '\n' :: collapseFuel fuel r2
        | none => c :: collapseFuel fuel cs
      | none => c :: collapseFuel fuel cs
    else c :: collapseFuel fuel cs

/-- The source's `re.sub(r'\n *\n *\n', r'\n\n', s)` collapsing runs of
blank lines. -/
def collapseBlanks (s : List Char) : List Char := collapseFuel s.length s

/-- The two-newline separator that ends the first paragraph. -/
def nlnl : List Char := ['\n', '\n']

/-- Insertion of the period: `string[:end] + '.' + string[end:]`. -/
def insertPeriodAt (s : List Char) (e : Nat) : List Char := s.take e ++ '.' :: s.drop e

/-- The period-insertion step of `format_docstring` (gen.py lines
222-226): find the end of the first paragraph (the first blank-line
separator, or the whole string), read `string[end - 1]` — which raises
`IndexError` on the empty string — and insert a period there when the
character read is not one. -/
def period_step (s4 : List Char) : Except PyErr (List Char) := do
  let e : Nat := match subIdx? nlnl s4 with | some i => i | none => s4.length
  let c ← pyIndexChar s4 ((e : Int) - 1)
  pure (if c ≠ '.' then insertPeriodAt s4 e else s4)

/-- Body of `format_docstring` for a truthy input (gen.py lines 196-227):
strip the comment leaders, translate the category tags, escape
backslashes, strip and collapse blank lines, ensure the first paragraph
ends with a period, and capitalize the first character (Python's
`string[0]` on an empty string would raise, but the period step already
has). -/
def format_docstring_go (s : String) : Except PyErr String := do
  let s1 := stripDocIndent s
  let s2 := subCatTranslate s1
  let s3 := pyReplace s2 "\\" "\\\\"
  let s5 ← period_step (collapseBlanks (pyStrip s3).data)
  match s5 with
  | [] => .error .indexError
  | c0 :: rest => .ok ⟨c0.toUpper :: rest⟩

/-- The source's `format_docstring`: a falsy input (absent or empty
string) yields Python's implicit `None`. -/
def format_docstring (s : Option String) : Except PyErr (Option String) :=
  match s with
  | none => .ok none
  | some str => if str = "" then .ok none else (format_docstring_go str).map some

/-- The source's `format_docblock` (gen.py lines 230-234): remove the
category tags, strip, format, then indent continuation lines by four
spaces.  When `format_docstring` returns `None` (content stripped to
nothing), the final `re.sub` receives `None` and raises `TypeError`. -/
def format_docblock (s : Option String) : Except PyErr (Option String) :=
  match s with
  | none => .ok none
  | some str =>
    if str = "" then .ok none
    else do
      let doc := pyStrip (removeCategories str)
      let fd ← format_docstring (some doc)
      match fd with
      | none => .error .typeError
      | some d => .ok (some (pyReplace d "\n" "\n    "))

/-- Python's rendering of an optional string inside an f-string: `None`
becomes the four characters `None`. -/
def pyStrOpt : Option String → String
  | none => "None"
  | some s => s

/-- The source's `doc_template` (gen.py lines 186-192). -/
def doc_template (doc : Option String) (name ind : String) : String :=
  "\"\"\"" ++ pyStrOpt doc ++ "\n\n" ++ ind ++ "Docs: https://wiki.libsdl.org/SDL3/" ++
    name ++ ".\n" ++ ind ++ "\"\"\"\n"

/-! ## Enum translation (gen.py lines 302-385) -/

/-- The two module-level running counters `running_enum_value` and
`running_enum_base` (gen.py lines 306-307), threaded explicitly. -/
structure EnumState where
  value : Int
  base : Nat
deriving DecidableEq, Repr

/-- The initial module state: `running_enum_value = 0`,
`running_enum_base = 0`. -/
def initEnumState : EnumState := ⟨0, 0⟩

/-- Python's `value.replace('u', '')`. -/
def stripU (s : String) : String := ⟨s.data.filter (fun c => c ≠ 'u')⟩

/-- Value of one digit in base `b` (Python accepts both hexadecimal digit
cases), `none` when the character is no digit of that base. -/
def digitVal? (b : Nat) (c : Char) : Option Nat :=
  let v : Nat :=
    if c.isDigit then c.toNat - 48
    else if 'a' ≤ c ∧ c ≤ 'f' then c.toNat - 87
    else if 'A' ≤ c ∧ c ≤ 'F' then c.toNat - 55
    else 99
  if v < b then some v else none

/-- Accumulating digit parser. -/
def parseDigitsAux (b acc : Nat) : List Char → Option Nat
  | [] => some acc
  | c :: cs =>
    match digitVal? b c with
    | some v => parseDigitsAux b (acc * b + v) cs
    | none => none

/-- Non-empty digit string in base `b`. -/
def parseDigits (b : Nat) : List Char → Option Nat
  | [] => none
  | cs => parseDigitsAux b 0 cs

/-- Unsigned part of Python's `int(s, 0)`: `0x`/`0X`, `0b`/`0B`,
`0o`/`0O` prefixes select the base, a leading zero is otherwise only
legal when every character is zero, plain digit strings are decimal.
Surrounding whitespace and underscore digit separators are not modelled:
the enum-value strings fed to it (captures of `-?[\w]+?` with `u`
removed) contain no whitespace, and SDL numeric literals use no
underscores, so an underscore can only occur in a member-name value,
which this parser rejects exactly as Python does. -/
def parseUnsignedBase0 : List Char → Option Nat
  | [] => none
  | ['0'] => some 0
  | '0' :: x :: rest =>
    if x == 'x' || x == 'X' then parseDigits 16 rest
    else if x == 'b' || x == 'B' then parseDigits 2 rest
    else if x == 'o' || x == 'O' then parseDigits 8 rest
    else if (x :: rest).all (· == '0') then some 0
    else none
  | cs => parseDigits 10 cs

/-- Python's `int(s, 0)` for the value strings at hand (sign, then the
unsigned form above). -/
def pyIntBase0 (s : String) : Option Int :=
  match s.data with
  | '-' :: rest => (parseUnsignedBase0 rest).map (fun n => -(n : Int))
  | '+' :: rest => (parseUnsignedBase0 rest).map (fun n => (n : Int))
  | cs => (parseUnsignedBase0 cs).map (fun n => (n : Int))

/-- Python's `hex(n)` (lowercase digits, `-0x` for negatives). -/
def pyHexInt (n : Int) : String :=
  if n < 0 then "-0x" ++ ⟨Nat.toDigits 16 (-n).toNat⟩ else "0x" ++ ⟨Nat.toDigits 16 n.toNat⟩

/-- Python's `str(n)` for an integer. -/
def pyDecInt (n : Int) : String :=
  if n < 0 then "-" ++ ⟨Nat.toDigits 10 (-n).toNat⟩ else ⟨Nat.toDigits 10 n.toNat⟩

/-- Python's `value.startswith('0x')` (the source tests the lowercase
prefix only). -/
def startsWith0x (s : String) : Bool :=
  match s.data with
  | '0' :: 'x' :: _ => true
  | _ => false

/-- The value computation of `translate_enum_type` (gen.py lines
313-323), the source's local variable `value` plus the updated counters:
an explicit value has its `u` characters removed first; if it parses as
an integer the running value becomes that integer plus one and the base
follows the `0x` prefix; if it does not parse (a member-name alias) the
emitted expression is `Self.` plus the stripped text and the counters
are untouched; a member without a value prints the running value in the
running base and increments it. -/
def enum_value_string (st : EnumState) (v? : Option String) : String × EnumState :=
  match v? with
  | some v0 =>
    let v := stripU v0
    match pyIntBase0 v with
    | some n => (v, ⟨n + 1, if startsWith0x v then 16 else 10⟩)
    | none => ("Self." ++ v, st)
  | none =>
    ((if st.base == 16 then pyHexInt st.value else pyDecInt st.value),
      ⟨st.value + 1, st.base⟩)

/-- The name fix `re.sub('(^[0-9]+$)', r'N\1', name)` (gen.py line 312):
an all-digit member name is prefixed with `N`. -/
def enum_member_name (n : String) : String :=
  if n ≠ "" && n.data.all Char.isDigit then "N" ++ n else n

/-- One enum member as captured by `match_enum_types` (gen.py line 304):
the name, the optional explicit value text and the optional trailing
comment text. -/
structure EnumMember where
  name : String
  value : Option String
  doc : Option String
deriving DecidableEq, Repr

/-- The source's `translate_enum_type` (gen.py lines 309-328) for one
member: the alias line, with the member docstring attached only when the
formatted doc is truthy.  (In Python a doc-formatting exception would
propagate after the globals were already updated; the state paired here
with an `ok` result is exactly the source's globals after the call.) -/
def translate_enum_type (st : EnumState) (m : EnumMember) :
    Except PyErr (String × EnumState) := do
  let name := enum_member_name m.name
  let (value, st2) := enum_value_string st m.value
  let doc ← format_docblock m.doc
  match doc with
  | some d => .ok ("    alias " ++ name ++ " = " ++ value ++ "\n    \"\"\"" ++ d ++ "\"\"\"", st2)
  | none => .ok ("    alias " ++ name ++ " = " ++ value ++ "\n", st2)

/-- The effect of `re.sub(match_enum_types, translate_enum_type, body)`
on an enum body given as its list of member matches (an SDL enum body is
a run of member lines wholly consumed by `match_enum_types`; text the
member pattern leaves unmatched — which the claims never exercise — is
not represented). -/
def translate_enum_members (st : EnumState) :
    List EnumMember → Except PyErr (String × EnumState)
  | [] => .ok ("", st)
  | m :: ms => do
    let (line, st2) ← translate_enum_type st m
    let (rest, st3) ← translate_enum_members st2 ms
    .ok (line ++ rest, st3)

/-- The source's `translate_enum` (gen.py lines 359-385) over a body of
member matches: it resets `running_enum_value` to `0` — and only that
counter; `running_enum_base` keeps whatever value the previous
translation left — formats the enum doc, translates the body and wraps
it in the struct template.  (`match_enum_if` blocks and free-standing
comments, handled by the two other subs, are modelled separately.) -/
def translate_enum (st : EnumState) (doc : Option String) (name : String)
    (members : List EnumMember) : Except PyErr (String × EnumState) := do
  let st0 : EnumState := ⟨0, st.base⟩
  let d ← format_docblock doc
  let (body, st1) ← translate_enum_members st0 members
  .ok ("\n@register_passable(\"trivial\")\nstruct " ++ name ++ ":\n    " ++
    doc_template d name "    " ++
    "\n    var value: UInt32\n\n    @always_inline\n    fn __init__(out self, value: Int):\n        self.value = value\n\n    @always_inline\n    fn __int__(self) -> Int:\n        return Int(self.value)\n\n" ++
    body ++ "\n", st1)

/-! ## Specification-side model of the enum counters

These definitions follow the spec's words (section 8: "members without
an explicit value equal `previous_value + 1`, and the printed numeric
base (decimal vs hex) matches the base of the most recent
explicitly-valued predecessor (or decimal if none yet)"), to be compared
with the code-level fold. -/

/-- Code-level fold of `enum_value_string` over an enum body's value
captures: the emitted value expressions and the final counters. -/
def runEnumValues (st : EnumState) : List (Option String) → List String × EnumState
  | [] => ([], st)
  | v :: vs =>
    let p := enum_value_string st v
    let q := runEnumValues p.2 vs
    (p.1 :: q.1, q.2)

/-- Spec-side recurrence: each member's resolved value and printing
base.  An explicit member contributes its own literal value and base and
makes the following auto-increment resume from it; an unvalued member
takes `next` in the current base and bumps `next`. -/
def spec_enum_run (next : Int) (base : Nat) : List (Option (Int × Nat)) → List (Int × Nat)
  | [] => []
  | some vb :: rest => vb :: spec_enum_run (vb.1 + 1) vb.2 rest
  | none :: rest => (next, base) :: spec_enum_run (next + 1) base rest

/-- Spec-side printing of one member: an explicit member shows its own
literal, an unvalued one shows its resolved value in the current base
(hexadecimal when that base is 16, decimal otherwise). -/
def spec_render_member (v? : Option String) (vb : Int × Nat) : String :=
  match v? with
  | some s => s
  | none => if vb.2 == 16 then pyHexInt vb.1 else pyDecInt vb.1

/-- Spec-side printing of a whole body. -/
def spec_render (vs : List (Option String)) (out : List (Int × Nat)) : List String :=
  List.zipWith spec_render_member vs out

/-- A canonical explicit literal in the SDL headers' style: it parses to
the stated integer, contains no lowercase `u` (so the unsigned-suffix
strip leaves it alone), and is a lowercase-`0x` hexadecimal literal
exactly when its stated base is 16 and a plain literal exactly when it
is 10. -/
def canonLit (s : String) (vb : Int × Nat) : Bool :=
  pyIntBase0 s == some vb.1 && stripU s == s &&
    ((vb.2 == 10 && !startsWith0x s) || (vb.2 == 16 && startsWith0x s))

/-- The value captures of a body and their spec-side readings are in
canonical correspondence: the same shape, unvalued members on both
sides, and explicit members canonical. -/
def canonRel : List (Option String) → List (Option (Int × Nat)) → Bool
  | [], [] => true
  | none :: vs, none :: ls => canonRel vs ls
  | some s :: vs, some vb :: ls => canonLit s vb && canonRel vs ls
  | _, _ => false

/-- Refinement: the code's fold prints exactly what the spec recurrence
prescribes, for any starting value and any starting bases that agree on
being hexadecimal. -/
theorem runEnumValues_eq_spec (vs : List (Option String)) :
    ∀ (ls : List (Option (Int × Nat))), canonRel vs ls = true →
    ∀ (next : Int) (cb b : Nat), ((cb == 16) = (b == 16)) →
    (runEnumValues ⟨next, cb⟩ vs).1 = spec_render vs (spec_enum_run next b ls) := by
  induction vs with
  | nil =>
    intro ls h next cb b _
    cases ls with
    | nil => rfl
    | cons l ls => simp [canonRel] at h
  | cons v vs ih =>
    intro ls h next cb b hb
    cases ls with
    | nil => cases v <;> simp [canonRel] at h
    | cons l ls =>
      cases v with
      | none =>
        cases l with
        | none =>
          simp only [canonRel] at h
          simp only [runEnumValues, enum_value_string, spec_enum_run, spec_render,
            List.zipWith, spec_render_member]
          rw [hb]
          simp only [List.cons.injEq]
          exact ⟨trivial, ih ls h (next + 1) cb b hb⟩
        | some vb => simp [canonRel] at h
      | some s =>
        cases l with
        | none => simp [canonRel] at h
        | some vb =>
          simp only [canonRel, Bool.and_eq_true] at h
          obtain ⟨hc, hrest⟩ := h
          simp only [canonLit, Bool.and_eq_true, Bool.or_eq_true, beq_iff_eq] at hc
          obtain ⟨⟨hparse, hstrip⟩, hbase⟩ := hc
          simp only [runEnumValues, enum_value_string, spec_enum_run, spec_render,
            List.zipWith, spec_render_member]
          rw [hstrip, hparse]
          simp only [List.cons.injEq]
          refine ⟨trivial, ih ls hrest (vb.1 + 1) _ vb.2 ?_⟩
          rcases hbase with ⟨hb10, hsw⟩ | ⟨hb16, hsw⟩
          · rw [Bool.not_eq_eq_eq_not, Bool.not_true] at hsw
            simp [hsw, hb10]
          · simp [hsw, hb16]

/-- In the spec recurrence an unvalued member always resolves to its
predecessor's value plus one (whatever kind the predecessor was). -/
theorem spec_enum_run_succ (ls : List (Option (Int × Nat))) :
    ∀ (next : Int) (b : Nat) (i : Nat) (vb1 vb2 : Int × Nat),
      ls[i + 1]? = some none →
      (spec_enum_run next b ls)[i]? = some vb1 →
      (spec_enum_run next b ls)[i + 1]? = some vb2 →
      vb2.1 = vb1.1 + 1 := by
  induction ls with
  | nil => intro next b i vb1 vb2 h1 _ _; simp at h1
  | cons l rest ih =>
    intro next b i vb1 vb2 h1 h2 h3
    cases i with
    | zero =>
      cases rest with
      | nil => simp at h1
      | cons l2 rest2 =>
        simp only [List.getElem?_cons_succ, List.getElem?_cons_zero, Option.some.injEq] at h1
        subst h1
        cases l with
        | none =>
          simp only [spec_enum_run, List.getElem?_cons_zero, List.getElem?_cons_succ,
            Option.some.injEq] at h2 h3
          rw [← h2, ← h3]
        | some vb =>
          simp only [spec_enum_run, List.getElem?_cons_zero, List.getElem?_cons_succ,
            Option.some.injEq] at h2 h3
          rw [← h2, ← h3]
    | succ j =>
      cases l with
      | none =>
        simp only [List.getElem?_cons_succ] at h1
        simp only [spec_enum_run, List.getElem?_cons_succ] at h2 h3
        exact ih (next + 1) b j vb1 vb2 h1 h2 h3
      | some vb =>
        simp only [List.getElem?_cons_succ] at h1
        simp only [spec_enum_run, List.getElem?_cons_succ] at h2 h3
        exact ih (vb.1 + 1) vb.2 j vb1 vb2 h1 h2 h3

deriving instance DecidableEq for Except

/-! ## Claims about the enum counters (C2, C3, C9) -/

/-- C2.  For every enum body (in canonical correspondence with its
spec-side reading, i.e. explicit values are canonical decimal or
lowercase-hex literals) translated from a state whose base counter is
not yet hexadecimal, the emitted value expressions are exactly the
spec-side rendering: a member without an explicit value receives the
running value — the previous member's value plus one, as the second
conjunct states for the spec recurrence — printed in the base of the
most recent explicitly-valued predecessor and in decimal if no
predecessor set a value; in particular `FOO = 1, BAR, BAZ = 0x10, QUX`
yields `1`, `2`, `0x10` and `0x11`, i.e. FOO=1, BAR=2, BAZ=16 printed as
hex, QUX=17 printed as hex. -/
theorem C2_enum_auto_increment_and_base
    (vs : List (Option String)) (ls : List (Option (Int × Nat)))
    (h : canonRel vs ls = true) (b0 : Nat) (hb0 : b0 ≠ 16) :
    (runEnumValues ⟨0, b0⟩ vs).1 = spec_render vs (spec_enum_run 0 10 ls)
    ∧ (∀ (i : Nat) (vb1 vb2 : Int × Nat), ls[i + 1]? = some none →
        (spec_enum_run 0 10 ls)[i]? = some vb1 →
        (spec_enum_run 0 10 ls)[i + 1]? = some vb2 → vb2.1 = vb1.1 + 1)
    ∧ (runEnumValues initEnumState [some "1", none, some "0x10", none]).1
        = ["1", "2", "0x10", "0x11"] := by
  refine ⟨?_, fun i vb1 vb2 => spec_enum_run_succ ls 0 10 i vb1 vb2, by decide⟩
  refine runEnumValues_eq_spec vs ls h 0 b0 10 ?_
  have : (b0 == 16) = false := by simpa using hb0
  rw [this]
  rfl

/-- C2 witness: the theorem applied to the concrete four-member body of
the claim's scenario, from the initial module state. -/
theorem C2_enum_auto_increment_and_base_witness :
    (canonRel [some "1", none, some "0x10", none]
        [some (1, 10), none, some (16, 16), none] = true ∧ (0 : Nat) ≠ 16)
    ∧ ((runEnumValues ⟨0, 0⟩ [some "1", none, some "0x10", none]).1
        = spec_render [some "1", none, some "0x10", none]
            (spec_enum_run 0 10 [some (1, 10), none, some (16, 16), none])
      ∧ (∀ (i : Nat) (vb1 vb2 : Int × Nat),
          ([some (1, 10), none, some (16, 16), none] : List (Option (Int × Nat)))[i + 1]?
            = some none →
          (spec_enum_run 0 10 [some (1, 10), none, some (16, 16), none])[i]? = some vb1 →
          (spec_enum_run 0 10 [some (1, 10), none, some (16, 16), none])[i + 1]? = some vb2 →
          vb2.1 = vb1.1 + 1)
      ∧ (runEnumValues initEnumState [some "1", none, some "0x10", none]).1
          = ["1", "2", "0x10", "0x11"]) :=
  ⟨⟨by decide, by decide⟩,
    C2_enum_auto_increment_and_base [some "1", none, some "0x10", none]
      [some (1, 10), none, some (16, 16), none] (by decide) 0 (by decide)⟩

/-- C3 counterexample.  The claim that both running counters are reset
at the start of every enum translation fails: `translate_enum` resets
only `running_enum_value`.  Translating `enum { A = 0x1 }` from the
initial state leaves the counters at `(2, 16)`, and translating
`enum { B }` from that left-behind state prints `0x0` where a fresh
state prints `0`, so the second translation's output depends on the
counter state left behind by the first. -/
theorem C3_base_not_reset_counterexample :
    (translate_enum initEnumState none "SDL_E1" [⟨"A", some "0x1", none⟩]).map Prod.snd
      = .ok ⟨2, 16⟩
    ∧ translate_enum ⟨2, 16⟩ none "SDL_E2" [⟨"B", none, none⟩]
      ≠ translate_enum initEnumState none "SDL_E2" [⟨"B", none, none⟩] := by
  constructor
  · decide
  · decide

/-- C3 amended.  Only the auto-increment value counter is entity-scoped:
`translate_enum` resets `running_enum_value` to zero at its start, so
its output is independent of the incoming value counter; the base
counter is not reset and persists into the next translation (the
counterexample exhibits the dependence). -/
theorem C3_value_reset_only (s t : EnumState) (h : s.base = t.base)
    (doc : Option String) (name : String) (members : List EnumMember) :
    translate_enum s doc name members = translate_enum t doc name members := by
  unfold translate_enum
  rw [h]

/-- C3 witness: two states with equal bases but different value counters
give identical translations. -/
theorem C3_value_reset_only_witness :
    ((⟨5, 10⟩ : EnumState).base = (⟨7, 10⟩ : EnumState).base)
    ∧ translate_enum ⟨5, 10⟩ none "SDL_X" [⟨"A", none, none⟩]
      = translate_enum ⟨7, 10⟩ none "SDL_X" [⟨"A", none, none⟩] :=
  ⟨rfl, C3_value_reset_only ⟨5, 10⟩ ⟨7, 10⟩ rfl none "SDL_X" [⟨"A", none, none⟩]⟩

/-- C9.  An enum member whose explicit value names another member is
emitted as a `Self.`-alias with the running counters untouched — but the
`value.replace('u', '')` cleanup meant for unsigned numeric suffixes has
already removed every lowercase `u` from the member name, so the emitted
expression references a name that does not exist: on the member
`FOO = SDL_audio_val` the code emits `Self.SDL_adio_val` (counters
unchanged) instead of `Self.SDL_audio_val`. -/
theorem C9_alias_name_u_stripped :
    enum_value_string ⟨5, 10⟩ (some "SDL_audio_val") = ("Self.SDL_adio_val", ⟨5, 10⟩)
    ∧ "Self.SDL_adio_val" ≠ "Self.SDL_audio_val" := by
  constructor
  · decide
  · decide

/-! ## Conditional enum members (gen.py lines 342-357, claim C1) -/

/-- Scanner for `re.finditer(match_enum_if_type, s)` with
`match_enum_if_type = r'(?P<name>\w+) = (?P<val>\w+)'`: every
non-overlapping `name = val` pair, left to right.  A failed attempt
cannot succeed from inside the same word run (the run is followed by the
same non-matching text), so skipping the whole run is exact. -/
def enumIfFuel : Nat → List Char → List (String × String)
  | 0, _ => []
  | _ + 1, [] => []
  | fuel + 1, c :: cs =>
    if isWordChar c then
      let rest := (c :: cs).dropWhile isWordChar
      match rest with
      | ' ' :: '=' :: ' ' :: r2 =>
        let v := r2.takeWhile isWordChar
        if v.isEmpty then enumIfFuel fuel rest
        else (⟨(c :: cs).takeWhile isWordChar⟩, ⟨v⟩) :: enumIfFuel fuel (r2.dropWhile isWordChar)
      | _ => enumIfFuel fuel rest
    else enumIfFuel fuel cs

/-- All `name = val` captures of a conditional branch's text. -/
def match_enum_if_types (s : String) : List (String × String) :=
  enumIfFuel s.data.length s.data

/-- The endianness-condition rewriting of `translate_enum_if` (gen.py
lines 346-350). -/
def translate_enum_if_cond (cond : String) : String :=
  if cond = "SDL_BYTEORDER == SDL_BIG_ENDIAN" then "is_big_endian()"
  else if cond = "SDL_BYTEORDER == SDL_LIL_ENDIAN" then "is_little_endian()"
  else cond

/-- The pairing loop `for false, true in zip(true_iter, false_iter)` of
`translate_enum_if` (gen.py line 355): the loop variable named `false`
is bound to the TRUE-branch matches and the variable named `true` to the
FALSE-branch matches.  Each emitted triple is the name and value from
the nth true-branch capture and the value from the nth false-branch
capture, exactly as the f-string on line 356 interpolates them. -/
def enum_if_zip (ts fs : List (String × String)) : List (String × String × String) :=
  List.zipWith (fun t f => (t.1, t.2, f.2)) ts fs

/-- One emitted line
`    alias {name} = Self.{thenVal} if {cond} else Self.{elseVal}`
(gen.py line 356). -/
def render_enum_if_alias (cond : String) (nvv : String × String × String) : String :=
  "    alias " ++ nvv.1 ++ " = Self." ++ nvv.2.1 ++ " if " ++ cond ++ " else Self." ++
    nvv.2.2 ++ "\n"

/-- The source's `translate_enum_if` (gen.py lines 345-357). -/
def translate_enum_if (cond trueText falseText : String) : String :=
  let c := translate_enum_if_cond cond
  String.join ((enum_if_zip (match_enum_if_types trueText)
    (match_enum_if_types falseText)).map (render_enum_if_alias c))

/-- Evaluation of the emitted Mojo conditional expression
`Self.a if cond else Self.b`: the first alternative when the condition
holds, the second otherwise (Mojo conditional-expression semantics, the
only fact about the target language the claims need). -/
def emitted_alias_value (thenVal elseVal : String) (cond : Bool) : String :=
  if cond then thenVal else elseVal

/-- C1 counterexample.  For the conditional block whose true branch is
`SDL_A = SDL_X` and whose false branch is `SDL_A = SDL_Y` under the
big-endian condition, the emitted constant is
`Self.SDL_X if is_big_endian() else Self.SDL_Y`: when the endianness
condition is true it evaluates to the TRUE-branch value `SDL_X`, not the
false-branch value `SDL_Y` the claim states. -/
theorem C1_enum_if_counterexample :
    translate_enum_if "SDL_BYTEORDER == SDL_BIG_ENDIAN"
        "    SDL_A = SDL_X,\n" "    SDL_A = SDL_Y,\n"
      = "    alias SDL_A = Self.SDL_X if is_big_endian() else Self.SDL_Y\n"
    ∧ enum_if_zip (match_enum_if_types "    SDL_A = SDL_X,\n")
        (match_enum_if_types "    SDL_A = SDL_Y,\n")
      = [("SDL_A", "SDL_X", "SDL_Y")]
    ∧ emitted_alias_value "SDL_X" "SDL_Y" true = "SDL_X"
    ∧ "SDL_X" ≠ "SDL_Y" := by
  refine ⟨by decide, by decide, by decide, by decide⟩

/-- C1 amended.  The pairing is positional — the nth true-branch capture
pairs with the nth false-branch capture, the emitted constant takes its
name (and its then-alternative) from the true branch — and each emitted
constant evaluates to the TRUE-branch value when the endianness
condition is true and to the false-branch value otherwise. -/
theorem C1_enum_if_positional_pairing (ts fs : List (String × String)) (i : Nat)
    (t f : String × String) (ht : ts[i]? = some t) (hf : fs[i]? = some f) (cond : String) :
    (enum_if_zip ts fs)[i]? = some (t.1, t.2, f.2)
    ∧ ((enum_if_zip ts fs).map (render_enum_if_alias cond))[i]?
        = some (render_enum_if_alias cond (t.1, t.2, f.2))
    ∧ emitted_alias_value t.2 f.2 true = t.2
    ∧ emitted_alias_value t.2 f.2 false = f.2 := by
  have hz : (enum_if_zip ts fs)[i]? = some (t.1, t.2, f.2) := by
    simp [enum_if_zip, List.getElem?_zipWith, ht, hf]
  refine ⟨hz, ?_, rfl, rfl⟩
  simp [List.getElem?_map, hz]

/-- C1 witness: the positional-pairing theorem applied to concrete
single-entry branches. -/
theorem C1_enum_if_positional_pairing_witness :
    (([("SDL_A", "SDL_X")] : List (String × String))[0]? = some ("SDL_A", "SDL_X")
      ∧ ([("SDL_A", "SDL_Y")] : List (String × String))[0]? = some ("SDL_A", "SDL_Y"))
    ∧ ((enum_if_zip [("SDL_A", "SDL_X")] [("SDL_A", "SDL_Y")])[0]?
        = some ("SDL_A", "SDL_X", "SDL_Y")
      ∧ ((enum_if_zip [("SDL_A", "SDL_X")] [("SDL_A", "SDL_Y")]).map
          (render_enum_if_alias "is_big_endian()"))[0]?
        = some (render_enum_if_alias "is_big_endian()" ("SDL_A", "SDL_X", "SDL_Y"))
      ∧ emitted_alias_value "SDL_X" "SDL_Y" true = "SDL_X"
      ∧ emitted_alias_value "SDL_X" "SDL_Y" false = "SDL_Y") :=
  ⟨⟨rfl, rfl⟩,
    C1_enum_if_positional_pairing [("SDL_A", "SDL_X")] [("SDL_A", "SDL_Y")] 0
      ("SDL_A", "SDL_X") ("SDL_A", "SDL_Y") rfl rfl "is_big_endian()"⟩

/-! ## Properties of the substring search (for claims C6 and C10) -/

/-- A found index is an occurrence. -/
theorem subIdx?_some_isPrefixOf (pat : List Char) :
    ∀ (l : List Char) (i : Nat), subIdx? pat l = some i → pat.isPrefixOf (l.drop i) := by
  intro l
  induction l with
  | nil =>
    intro i h
    simp only [subIdx?] at h
    by_cases hp : pat.isEmpty
    · rw [if_pos hp] at h
      cases h
      simpa [List.isEmpty_iff] using hp
    · rw [if_neg hp] at h
      cases h
  | cons c cs ih =>
    intro i h
    simp only [subIdx?] at h
    by_cases hp : pat.isPrefixOf (c :: cs)
    · rw [if_pos hp] at h
      cases h
      simpa using hp
    · rw [if_neg hp] at h
      obtain ⟨j, hj, rfl⟩ := Option.map_eq_some'.mp h
      simpa [List.drop_succ_cons] using ih j hj

/-- A found index is the first occurrence. -/
theorem subIdx?_some_min (pat : List Char) :
    ∀ (l : List Char) (i : Nat), subIdx? pat l = some i →
      ∀ j, j < i → ¬ pat.isPrefixOf (l.drop j) := by
  intro l
  induction l with
  | nil =>
    intro i h j hj
    simp only [subIdx?] at h
    by_cases hp : pat.isEmpty
    · rw [if_pos hp] at h
      cases h
      omega
    · rw [if_neg hp] at h
      cases h
  | cons c cs ih =>
    intro i h j hj
    simp only [subIdx?] at h
    by_cases hp : pat.isPrefixOf (c :: cs)
    · rw [if_pos hp] at h
      cases h
      omega
    · rw [if_neg hp] at h
      obtain ⟨k, hk, rfl⟩ := Option.map_eq_some'.mp h
      cases j with
      | zero => simpa using hp
      | succ j0 =>
        rw [List.drop_succ_cons]
        exact ih k hk j0 (by omega)

/-- A failed search means no occurrence at all. -/
theorem subIdx?_none (pat : List Char) :
    ∀ (l : List Char), subIdx? pat l = none → ∀ j, ¬ pat.isPrefixOf (l.drop j) := by
  intro l
  induction l with
  | nil =>
    intro h j
    simp only [subIdx?] at h
    by_cases hp : pat.isEmpty
    · rw [if_pos hp] at h
      cases h
    · rw [if_neg hp] at h
      simp only [List.drop_nil]
      intro hc
      rw [List.isPrefixOf_iff_prefix] at hc
      rw [List.prefix_nil] at hc
      subst hc
      simp at hp
  | cons c cs ih =>
    intro h j
    simp only [subIdx?] at h
    by_cases hp : pat.isPrefixOf (c :: cs)
    · rw [if_pos hp] at h
      cases h
    · rw [if_neg hp] at h
      rw [Option.map_eq_none'] at h
      cases j with
      | zero => simpa using hp
      | succ j0 =>
        rw [List.drop_succ_cons]
        exact ih h j0

/-- Conversely, the first occurrence is what the search returns. -/
theorem subIdx?_intro (pat : List Char) :
    ∀ (l : List Char) (i : Nat), pat.isPrefixOf (l.drop i) →
      (∀ j, j < i → ¬ pat.isPrefixOf (l.drop j)) → subIdx? pat l = some i := by
  intro l
  induction l with
  | nil =>
    intro i hpre hmin
    simp only [List.drop_nil] at hpre
    have hpe : pat.isEmpty := by
      rw [List.isPrefixOf_iff_prefix] at hpre
      rw [List.prefix_nil] at hpre
      simp [hpre]
    have hi : i = 0 := by
      by_contra hne
      exact hmin 0 (by omega) (by simp [List.isPrefixOf_iff_prefix]; simpa [List.isEmpty_iff] using hpe)
    subst hi
    simp [subIdx?, hpe]
  | cons c cs ih =>
    intro i hpre hmin
    cases i with
    | zero =>
      simp only [List.drop_zero] at hpre
      simp [subIdx?, hpre]
    | succ i0 =>
      have hp0 : ¬ pat.isPrefixOf (c :: cs) := by simpa using hmin 0 (by omega)
      simp only [subIdx?, if_neg hp0]
      rw [List.drop_succ_cons] at hpre
      rw [ih i0 hpre (fun j hj => by simpa [List.drop_succ_cons] using hmin (j + 1) (by omega))]
      rfl

/-- Conversely, no occurrence at all means the search fails. -/
theorem subIdx?_none_intro (pat : List Char) :
    ∀ (l : List Char), (∀ j, ¬ pat.isPrefixOf (l.drop j)) → subIdx? pat l = none := by
  intro l
  induction l with
  | nil =>
    intro hmin
    have := hmin 0
    simp only [List.drop_nil] at this
    have hpe : ¬ pat.isEmpty := by
      intro hc
      exact this (by simp [List.isPrefixOf_iff_prefix]; simpa [List.isEmpty_iff] using hc)
    simp [subIdx?, hpe]
  | cons c cs ih =>
    intro hmin
    have hp0 : ¬ pat.isPrefixOf (c :: cs) := by simpa using hmin 0
    simp only [subIdx?, if_neg hp0]
    rw [ih (fun j => by simpa [List.drop_succ_cons] using hmin (j + 1))]
    rfl

/-- An occurrence of the blank-line separator is the same thing as two
consecutive newline characters. -/
theorem nlnl_isPrefixOf_iff (l : List Char) :
    nlnl.isPrefixOf l = true ↔ l[0]? = some '\n' ∧ l[1]? = some '\n' := by
  match l with
  | [] => simp [nlnl, List.isPrefixOf]
  | [a] => simp [nlnl, List.isPrefixOf]
  | a :: b :: t =>
    simp only [nlnl, List.isPrefixOf, Bool.and_eq_true, beq_iff_eq,
      List.getElem?_cons_zero, List.getElem?_cons_succ, Option.some.injEq]
    constructor
    · rintro ⟨h1, h2, _⟩
      exact ⟨h1.symm, h2.symm⟩
    · rintro ⟨h1, h2⟩
      exact ⟨h1.symm, h2.symm, by simp [List.isPrefixOf]⟩

/-- The first paragraph of a text: everything before the first blank-line
separator, the whole text when there is none. -/
def firstPara (s : List Char) : List Char :=
  match subIdx? nlnl s with
  | some e => s.take e
  | none => s

/-- The first paragraph ends with a period. -/
def paraProp (s : List Char) : Prop := (firstPara s).getLast? = some '.'

/-- Reduction of the monadic bind at a success value of `Except`. -/
theorem except_bind_ok {α β : Type} (a : α) (f : α → Except PyErr β) :
    (do let x ← (Except.ok a : Except PyErr α); f x) = f a := rfl

/-- Reduction of `pure` for the `Except` monad. -/
theorem except_pure_eq_ok {α : Type} (a : α) : (pure a : Except PyErr α) = .ok a := rfl

/-- Successful Python indexing at a non-negative position. -/
theorem pyIndexChar_ok (s : List Char) (n : Nat) (c : Char) (h : s[n]? = some c) :
    pyIndexChar s ((n : Nat) : Int) = .ok c := by
  have hn : n < s.length := by
    by_contra hc
    rw [List.getElem?_eq_none (by omega)] at h
    cases h
  have hneg : ¬ ((n : Int) < 0) := by omega
  simp only [pyIndexChar, if_neg hneg]
  rw [dif_pos (by simpa [Int.toNat_natCast] using hn)]
  simp only [List.get_eq_getElem, Int.toNat_natCast]
  rw [List.getElem?_eq_getElem hn] at h
  injection h with h
  exact congrArg Except.ok h

/-- The period step of `format_docstring` succeeds on any non-empty text
that does not start with a newline, and its result's first paragraph
ends with a period. -/
theorem period_step_closes_para (s4 : List Char) (h0 : s4 ≠ [])
    (hh : s4.head? ≠ some '\n') :
    ∃ s5, period_step s4 = .ok s5 ∧ s5 ≠ [] ∧ paraProp s5 := by
  have hhead : s4[0]? ≠ some '\n' := by
    cases s4 with
    | nil => simp
    | cons a t => simpa using hh
  have hlen0 : 0 < s4.length := List.length_pos.mpr h0
  rcases hsub : subIdx? nlnl s4 with _ | i
  · -- no blank-line separator: end = len(s4)
    have hnone := subIdx?_none nlnl s4 hsub
    have hcast : ((s4.length : Int) - 1) = ((s4.length - 1 : Nat) : Int) := by omega
    have hget : s4[s4.length - 1]? = some (s4.get ⟨s4.length - 1, by omega⟩) := by
      rw [List.getElem?_eq_getElem (by omega)]
      rw [List.get_eq_getElem]
    have hstep : period_step s4 =
        pure (if s4.get ⟨s4.length - 1, by omega⟩ ≠ '.' then insertPeriodAt s4 s4.length else s4) := by
      simp only [period_step, hsub, hcast]
      rw [pyIndexChar_ok s4 (s4.length - 1) _ hget]
      rw [except_bind_ok]
    by_cases hdot : s4.get ⟨s4.length - 1, by omega⟩ = '.'
    · refine ⟨s4, ?_, h0, ?_⟩
      · rw [hstep, if_neg (fun hc => hc hdot), except_pure_eq_ok]
      · unfold paraProp firstPara
        rw [hsub, List.getLast?_eq_getElem?, hget, hdot]
    · refine ⟨s4 ++ ['.'], ?_, by simp, ?_⟩
      · rw [hstep, if_pos hdot, except_pure_eq_ok]
        unfold insertPeriodAt
        rw [List.take_length, List.drop_length]
      · have hnone2 : subIdx? nlnl (s4 ++ ['.']) = none := by
          refine subIdx?_none_intro nlnl _ (fun j hc => ?_)
          rw [nlnl_isPrefixOf_iff] at hc
          obtain ⟨hc0, hc1⟩ := hc
          rw [List.getElem?_drop] at hc0 hc1
          by_cases hj1 : j + 1 < s4.length
          · refine hnone j ?_
            rw [nlnl_isPrefixOf_iff]
            rw [List.getElem?_append_left (by omega)] at hc0
            rw [List.getElem?_append_left (by omega)] at hc1
            constructor
            · rw [List.getElem?_drop]; exact hc0
            · rw [List.getElem?_drop]; exact hc1
          · by_cases hj2 : j + 1 = s4.length
            · rw [show j + 1 = s4.length by omega] at hc1
              rw [List.getElem?_append_right (by omega)] at hc1
              simp at hc1
            · by_cases hj4 : j = s4.length
              · rw [show j + 0 = s4.length by omega] at hc0
                rw [List.getElem?_append_right (by omega)] at hc0
                simp at hc0
              · rw [List.getElem?_eq_none (by simp; omega)] at hc0
                cases hc0
        unfold paraProp firstPara
        rw [hnone2, List.getLast?_concat]
  · -- a separator at index i
    have hpre := subIdx?_some_isPrefixOf nlnl s4 i hsub
    have hmin := subIdx?_some_min nlnl s4 i hsub
    have hi0 : i ≠ 0 := by
      intro hc
      subst hc
      rw [List.drop_zero, nlnl_isPrefixOf_iff] at hpre
      exact hhead hpre.1
    have hlen : i + 2 ≤ s4.length := by
      rw [List.isPrefixOf_iff_prefix] at hpre
      have h2 := hpre.length_le
      simp only [nlnl, List.length_cons, List.length_nil, List.length_drop] at h2
      omega
    have hcast : ((i : Int) - 1) = ((i - 1 : Nat) : Int) := by omega
    have hget : s4[i - 1]? = some (s4.get ⟨i - 1, by omega⟩) := by
      rw [List.getElem?_eq_getElem (by omega)]
      rw [List.get_eq_getElem]
    have hstep : period_step s4 =
        pure (if s4.get ⟨i - 1, by omega⟩ ≠ '.' then insertPeriodAt s4 i else s4) := by
      simp only [period_step, hsub, hcast]
      rw [pyIndexChar_ok s4 (i - 1) _ hget]
      rw [except_bind_ok]
    have hlentake : (s4.take i).length = i := by
      rw [List.length_take]
      omega
    have htake : (s4.take i).getLast? = some (s4.get ⟨i - 1, by omega⟩) := by
      rw [List.getLast?_eq_getElem?]
      simp only [hlentake]
      rw [List.getElem?_take, if_pos (by omega)]
      exact hget
    by_cases hdot : s4.get ⟨i - 1, by omega⟩ = '.'
    · refine ⟨s4, ?_, h0, ?_⟩
      · rw [hstep, if_neg (fun hc => hc hdot), except_pure_eq_ok]
      · unfold paraProp firstPara
        rw [hsub, htake, hdot]
    · have hfound : subIdx? nlnl (s4.take i ++ '.' :: s4.drop i) = some (i + 1) := by
        refine subIdx?_intro nlnl _ (i + 1) ?_ ?_
        · have hdr : (s4.take i ++ '.' :: s4.drop i).drop (i + 1) = s4.drop i := by
            rw [show i + 1 = (s4.take i).length + 1 by omega]
            rw [List.drop_append]
            rfl
          rw [hdr]
          exact hpre
        · intro j hj hc
          rw [nlnl_isPrefixOf_iff] at hc
          obtain ⟨hc0, hc1⟩ := hc
          rw [List.getElem?_drop] at hc0 hc1
          by_cases hji : j + 1 < i
          · refine hmin j (by omega) ?_
            rw [nlnl_isPrefixOf_iff]
            rw [List.getElem?_append_left (by rw [hlentake]; omega)] at hc0
            rw [List.getElem?_append_left (by rw [hlentake]; omega)] at hc1
            rw [List.getElem?_take, if_pos (by omega)] at hc0
            rw [List.getElem?_take, if_pos (by omega)] at hc1
            constructor
            · rw [List.getElem?_drop]; exact hc0
            · rw [List.getElem?_drop]; exact hc1
          · by_cases hji2 : j + 1 = i
            · rw [show j + 1 = (s4.take i).length by omega] at hc1
              rw [List.getElem?_append_right (by omega)] at hc1
              simp at hc1
            · have hji3 : j = i := by omega
              rw [show j + 0 = (s4.take i).length by omega] at hc0
              rw [List.getElem?_append_right (by omega)] at hc0
              simp at hc0
      refine ⟨s4.take i ++ '.' :: s4.drop i, ?_, by simp, ?_⟩
      · rw [hstep, if_pos hdot, except_pure_eq_ok]
        rfl
      · have hfp : firstPara (s4.take i ++ '.' :: s4.drop i)
            = (s4.take i ++ '.' :: s4.drop i).take (i + 1) := by
          unfold firstPara
          rw [hfound]
        unfold paraProp
        rw [hfp, show i + 1 = (s4.take i).length + 1 by omega, List.take_append]
        simp

/-! ## The no-tag case of the category subs (claims C6 and C10) -/

/-- Splitting into lines loses nothing. -/
theorem splitLinesAux_flatten : ∀ (cs acc : List Char),
    (splitLinesAux acc cs).flatten = acc.reverse ++ cs := by
  intro cs
  induction cs with
  | nil => intro acc; simp [splitLinesAux]
  | cons c cs ih =>
    intro acc
    simp only [splitLinesAux]
    by_cases h : c == '\n'
    · rw [if_pos h]
      have hc : c = '\n' := by simpa using h
      simp [ih [], hc]
    · rw [if_neg h]
      rw [ih (c :: acc)]
      simp

/-- A text does have the lines it was split into. -/
theorem splitLines_flatten (s : List Char) : (splitLines s).flatten = s := by
  simpa using splitLinesAux_flatten s []

/-- Whether some line of the text starts a category section per
`match_docblock_category` (a tag section in the spec's words). -/
def hasCatLine (s : String) : Bool :=
  (splitLines s.data).any (fun l => (catParse? l).isSome)

/-- When no line starts a category, the category sub copies the input. -/
theorem catScanAux_no_cat {σ : Type} (repl : σ → List Char → List Char → List Char × σ) :
    ∀ (ls : List (List Char)) (st : σ),
      (∀ l ∈ ls, catParse? l = none) → catScanAux repl st none ls = ls.flatten := by
  intro ls
  induction ls with
  | nil => intro st _; rfl
  | cons l ls ih =>
    intro st h
    have hl : catParse? l = none := h l (by simp)
    simp only [catScanAux, hl]
    rw [ih st (fun x hx => h x (by simp [hx]))]
    simp

/-- `format_docblock`'s removal sub is the identity on tag-free input. -/
theorem removeCategories_id (s : String) (h : hasCatLine s = false) :
    removeCategories s = s := by
  unfold removeCategories
  rw [catScanAux_no_cat]
  · rw [splitLines_flatten]
  · intro l hl
    simp only [hasCatLine, List.any_eq_false] at h
    simpa using h l hl

/-- `format_docstring`'s translating sub is the identity on tag-free
input. -/
theorem subCatTranslate_id (s : String) (h : hasCatLine s = false) :
    subCatTranslate s = s := by
  unfold subCatTranslate
  rw [catScanAux_no_cat]
  · rw [splitLines_flatten]
  · intro l hl
    simp only [hasCatLine, List.any_eq_false] at h
    simpa using h l hl

/-- The prose-cleaning pipeline of `format_docblock` once both category
subs are the identity (the tag-free case): strip, strip the comment
leaders, escape backslashes, strip again and collapse blank-line runs. -/
def docblock_clean (raw : String) : List Char :=
  collapseBlanks (pyStrip (pyReplace (stripDocIndent (pyStrip raw)) "\\" "\\\\")).data

/-- C10.  The doc-string formatter is not total: the non-empty raw input
`*` consists of one comment-leader character, so stripping the leaders
and the tag sections leaves the empty string, and the period-insertion
step indexes `string[-1]` into that empty string and raises `IndexError`
(the block formatter propagates it) instead of returning or omitting a
doc block. -/
theorem C10_format_docstring_not_total :
    ("*" : String) ≠ ""
    ∧ format_docstring (some "*") = .error .indexError
    ∧ format_docblock (some "*") = .error .indexError := by
  refine ⟨by decide, by decide, by decide⟩

/-- C6 counterexample.  A declaration with no preceding doc comment does
NOT have its doc block omitted from the emitted text: `translate_enum`
passes the formatter's `None` straight into `doc_template`, whose
f-string renders the four characters `None`, so the emitted enum text
contains a docstring reading `"""None`.  The same already holds of
`doc_template` alone. -/
theorem C6_none_doc_not_omitted_counterexample :
    containsSub (doc_template none "SDL_X" "    ") "\"\"\"None\n" = true
    ∧ (translate_enum initEnumState none "SDL_X" [⟨"A", none, none⟩]).map
        (fun p => containsSub p.1 "\"\"\"None\n") = .ok true := by
  refine ⟨by decide, by decide⟩

/-- C6 amended.  Empty doc input yields no doc string from the
doc-translation itself — `format_docblock` returns Python's `None`, not
an empty docstring — and member-level docstrings are omitted from the
emitted text (an enum member with no comment gets a bare alias line);
declaration-level templates, however, still emit a doc block, rendering
the missing doc as the text `None` (the counterexample).  For non-empty
input with no tag sections whose cleaned prose is non-empty, the output
is the prose — capitalized by the final step, with its first paragraph
period-terminated — and the emitted block appends the
documentation-URL footer. -/
theorem C6_doc_empty_and_tagfree (raw name : String)
    (h2 : hasCatLine raw = false)
    (h3 : hasCatLine (stripDocIndent (pyStrip raw)) = false)
    (h4 : docblock_clean raw ≠ [])
    (h5 : (docblock_clean raw).head? ≠ some '\n') :
    (format_docblock none = .ok none
      ∧ format_docblock (some "") = .ok none
      ∧ (Except.ok none : Except PyErr (Option String)) ≠ .ok (some ""))
    ∧ (∀ (st : EnumState) (n : String) (v? : Option String),
        translate_enum_type st ⟨n, v?, none⟩
          = .ok ("    alias " ++ enum_member_name n ++ " = "
              ++ (enum_value_string st v?).1 ++ "\n", (enum_value_string st v?).2))
    ∧ (∃ s5, period_step (docblock_clean raw) = .ok s5 ∧ s5 ≠ [] ∧ paraProp s5
        ∧ format_docblock (some raw)
            = .ok (some (pyReplace (capitalize ⟨s5⟩) "\n" "\n    "))
        ∧ ∀ d : String, doc_template (some d) name ""
            = "\"\"\"" ++ d ++ "\n\n" ++ "Docs: https://wiki.libsdl.org/SDL3/"
              ++ name ++ ".\n" ++ "\"\"\"\n") := by
  refine ⟨⟨rfl, rfl, by decide⟩, ?_, ?_⟩
  · intro st n v?
    rcases he : enum_value_string st v? with ⟨value, st2⟩
    simp only [translate_enum_type, he, format_docblock, except_bind_ok]
  · have hraw : raw ≠ "" := by
      intro hcon
      rw [hcon] at h4
      exact h4 (by decide)
    have hdoc : pyStrip raw ≠ "" := by
      intro hcon
      apply h4
      unfold docblock_clean
      rw [hcon]
      decide
    obtain ⟨s5, hps, hne, hpara⟩ := period_step_closes_para (docblock_clean raw) h4 h5
    refine ⟨s5, hps, hne, hpara, ?_, ?_⟩
    · have harg : collapseBlanks
          (pyStrip (pyReplace (stripDocIndent (pyStrip raw)) "\\" "\\\\")).data
          = docblock_clean raw := rfl
      simp only [format_docblock, if_neg hraw]
      rw [removeCategories_id raw h2]
      simp only [format_docstring, if_neg hdoc]
      simp only [format_docstring_go]
      rw [subCatTranslate_id _ h3]
      rw [harg, hps, except_bind_ok]
      cases s5 with
      | nil => exact absurd rfl hne
      | cons c0 rest =>
        simp only [except_bind_ok, Except.map_ok]
        rfl
    · intro d
      simp only [doc_template, pyStrOpt, String.append_empty]

/-- C6 witness: the amended theorem applied at the concrete tag-free raw
comment ` * hello there` and declaration name `SDL_X`. -/
theorem C6_doc_empty_and_tagfree_witness :
    (hasCatLine " * hello there" = false
      ∧ hasCatLine (stripDocIndent (pyStrip " * hello there")) = false
      ∧ docblock_clean " * hello there" ≠ []
      ∧ (docblock_clean " * hello there").head? ≠ some '\n')
    ∧ ((format_docblock none = .ok none
        ∧ format_docblock (some "") = .ok none
        ∧ (Except.ok none : Except PyErr (Option String)) ≠ .ok (some ""))
      ∧ (∀ (st : EnumState) (n : String) (v? : Option String),
          translate_enum_type st ⟨n, v?, none⟩
            = .ok ("    alias " ++ enum_member_name n ++ " = "
                ++ (enum_value_string st v?).1 ++ "\n", (enum_value_string st v?).2))
      ∧ (∃ s5, period_step (docblock_clean " * hello there") = .ok s5 ∧ s5 ≠ []
          ∧ paraProp s5
          ∧ format_docblock (some " * hello there")
              = .ok (some (pyReplace (capitalize ⟨s5⟩) "\n" "\n    "))
          ∧ ∀ d : String, doc_template (some d) "SDL_X" ""
              = "\"\"\"" ++ d ++ "\n\n" ++ "Docs: https://wiki.libsdl.org/SDL3/"
                ++ "SDL_X" ++ ".\n" ++ "\"\"\"\n")) :=
  ⟨⟨by decide, by decide, by decide, by decide⟩,
    C6_doc_empty_and_tagfree " * hello there" "SDL_X"
      (by decide) (by decide) (by decide) (by decide)⟩

/-! ## Function translation (gen.py lines 493-550, claims C4, C5, C7) -/

/-- Kernel-friendly `String.startsWith`. -/
def strStartsWith (s pre : String) : Bool := pre.data.isPrefixOf s.data

/-- Python's `','.join`-style joining with a separator. -/
def joinSep (sep : String) : List String → String
  | [] => ""
  | [a] => a
  | a :: rest => a ++ sep ++ joinSep sep rest

/-- The Mojo type of an immutable C character pointer — what
`match_string_argument = r'(\w+): Ptr\[c_char, mut = False\]'` keys on. -/
def charConstPtr : String := "Ptr[c_char, mut = False]"

/-- Fueled scanner for `re.sub(match_string_argument, repl, s)`: a match
is a word run whose end is immediately followed by the literal
`: Ptr[c_char, mut = False]` (the literal starts with a non-word
character, so the match can only start at the beginning of the run);
`repl` builds the replacement from the run.  `revRun` collects the
current word run, reversed. -/
def stringArgSubFuel (lit : List Char) (repl : List Char → List Char) :
    Nat → List Char → List Char → List Char
  | 0, revRun, rest => revRun.reverse ++ rest
  | _ + 1, revRun, [] => revRun.reverse
  | fuel + 1, revRun, c :: cs =>
    if isWordChar c then stringArgSubFuel lit repl fuel (c :: revRun) cs
    else if !revRun.isEmpty && lit.isPrefixOf (c :: cs) then
      repl revRun.reverse ++ stringArgSubFuel lit repl fuel [] ((c :: cs).drop lit.length)
    else revRun.reverse ++ c :: stringArgSubFuel lit repl fuel [] cs

/-- The source's `re.sub(match_string_argument, r'String', sdl_ret)`
(gen.py line 533) computing `mojo_ret`. -/
def sub_string_argument (s : String) : String :=
  ⟨stringArgSubFuel (": " ++ charConstPtr).data (fun _ => "String".data)
    s.data.length [] s.data⟩

/-- One translated argument as `translate_argument` emits it,
`name: type` (gen.py line 500), over pre-split (snake-cased name,
mapped type) pairs. -/
def render_sdl_arg (a : String × String) : String := a.1 ++ ": " ++ a.2

/-- Line 534's result: the native-typed argument list text. -/
def sdl_args_of (args : List (String × String)) : String :=
  joinSep ", " (args.map render_sdl_arg)

/-- Line 535, `re.sub(match_string_argument, r'owned \1: String',
sdl_args)`: an argument typed as the immutable character pointer is
exposed as `owned name: String`; every other argument keeps its native
rendering.  (On the joined text the regex rewrites exactly these
entries: names are word runs and no mapped type of the translator's
output embeds the `name: Ptr[c_char, mut = False]` shape.) -/
def mojo_arg_of (a : String × String) : String :=
  if a.2 = charConstPtr then "owned " ++ a.1 ++ ": String" else render_sdl_arg a

/-- The wrapper-facing argument list text. -/
def mojo_args_of (args : List (String × String)) : String :=
  joinSep ", " (args.map mojo_arg_of)

/-- Lines 536-538: `pass_args` starts as the bare argument names
(`re.sub(match_argument_names, r'\1\2', sdl_args)`), then the loop over
the `String`-typed wrapper arguments rewrites each such name — exactly
the immutable-character-pointer arguments — to
`name.unsafe_cstr_ptr()`. -/
def pass_arg_of (a : String × String) : String :=
  if a.2 = charConstPtr then a.1 ++ ".unsafe_cstr_ptr()" else a.1

/-- The call-site argument text. -/
def pass_args_of (args : List (String × String)) : String :=
  joinSep ", " (args.map pass_arg_of)

/-- Line 539: the native call expression. -/
def dylib_call (f_name : String) (args : List (String × String)) (sdl_ret : String) : String :=
  "_get_dylib_function[lib, \"" ++ f_name ++ "\", fn (" ++ sdl_args_of args ++ ") -> "
    ++ sdl_ret ++ "]()(" ++ pass_args_of args ++ ")"

/-- The source's `fn_raises_template` (gen.py lines 505-514). -/
def fn_raises_template (doc : Option String) (sdl_name mojo_name args ret call : String) :
    String :=
  "\nfn " ++ mojo_name ++ "(" ++ args
    ++ (if args ≠ "" ∧ ret ≠ "None" then ", " else "")
    ++ (if ret ≠ "None" then "out ret: " ++ ret else "")
    ++ ") raises: \n    " ++ doc_template doc sdl_name "    "
    ++ "\n    ret = " ++ call
    ++ "\n    if not ret:\n        raise String(unsafe_from_utf8_ptr=sdl_get_error())\n\n"

/-- The source's `fn_template` (gen.py lines 516-523). -/
def fn_template (doc : Option String) (sdl_name mojo_name args ret call : String) : String :=
  "\nfn " ++ mojo_name ++ "(" ++ args ++ ") -> " ++ ret ++ ": \n    "
    ++ doc_template doc sdl_name "    "
    ++ "\n    return " ++ call ++ "\n\n"

/-- One line of `re.sub(r'True on success.*?false (.*)', r'Raises \1',
doc)` (gen.py line 544): `.` does not match a newline, so matches are
confined to single lines; a line matches iff it contains
`True on success` followed later by `false `, and the replacement spans
from that occurrence to the end of the line (`(.*)` is greedy). -/
def trueOnSuccessLine (l : List Char) : List Char :=
  match subIdx? "True on success".data l with
  | none => l
  | some i =>
    let rest := l.drop (i + 15)
    match subIdx? "false ".data rest with
    | none => l
    | some j => l.take i ++ "Raises ".data ++ rest.drop (j + 6)

/-- The whole doc sub of gen.py line 544 (the trailing newline of a line
chunk sits after any match, so per-chunk rewriting is exact). -/
def sub_true_on_success (s : String) : String :=
  ⟨((splitLines s.data).map trueOnSuccessLine).flatten⟩

/-- The doc rewriting of the raising branch (gen.py lines 543-544). -/
def raises_doc_rewrite (d : String) : String :=
  sub_true_on_success (pyReplace d "Returns" "Raises")

/-- The variadic guard of `translate_function` (gen.py line 526):
`m.group('f_attr') and ('VARARG' in m.group('f_attr'))`. -/
def is_vararg (f_attr : Option String) : Bool :=
  match f_attr with
  | some a => !(a == "") && containsSub a "VARARG"
  | none => false

/-- The source's `translate_function` (gen.py lines 525-550) over
pre-extracted match data: the optional attribute text, the raw doc
comment, the function name, the argument list as (snake-name,
mapped-type) pairs — the state after line 534's per-argument sub, see
`sdl_args_of` — and the mapped return type (the result of
`translate_return_type`).  A variadic prototype yields the empty
string; an absent doc makes the `re.search` on line 542 raise
`TypeError` exactly as `re.search(pattern, None)` does. -/
def translate_function (f_attr doc_raw : Option String) (f_name : String)
    (args : List (String × String)) (sdl_ret : String) : Except PyErr String :=
  if is_vararg f_attr then .ok ""
  else do
    let doc ← format_docblock doc_raw
    let mojo_name := snake_case f_name
    let mojo_ret := sub_string_argument sdl_ret
    let mojo_args := mojo_args_of args
    let call0 := dylib_call f_name args sdl_ret
    let call := if mojo_ret == "String"
      then "String(unsafe_from_utf8_ptr=" ++ call0 ++ ")" else call0
    match doc with
    | none => .error .typeError
    | some d =>
      if containsSub d "Returns:\n        True on success" && mojo_ret == "Bool" then
        .ok (fn_raises_template (some (raises_doc_rewrite d)) f_name mojo_name
          mojo_args "None" call)
      else if containsSub d "on failure;" &&
          (strStartsWith mojo_ret "Ptr" || strStartsWith mojo_ret "String") then
        .ok (fn_raises_template (some d) f_name mojo_name mojo_args mojo_ret call)
      else .ok (fn_template (some d) f_name mojo_name mojo_args mojo_ret call)

/-- An element of a joined list is a substring of the joined text. -/
theorem joinSep_split (sep : String) :
    ∀ (l : List String) (i : Nat) (s : String), l[i]? = some s →
      ∃ p q, joinSep sep l = p ++ s ++ q := by
  intro l
  induction l with
  | nil => intro i s h; simp at h
  | cons a t ih =>
    intro i s h
    cases i with
    | zero =>
      simp only [List.getElem?_cons_zero, Option.some.injEq] at h
      subst h
      cases t with
      | nil => exact ⟨"", "", by simp [joinSep]⟩
      | cons b t2 =>
        refine ⟨"", sep ++ joinSep sep (b :: t2), ?_⟩
        simp [joinSep, String.append_assoc]
    | succ j =>
      simp only [List.getElem?_cons_succ] at h
      obtain ⟨p, q, hpq⟩ := ih j s h
      cases t with
      | nil => simp at h
      | cons b t2 =>
        refine ⟨a ++ sep ++ p, q, ?_⟩
        simp only [joinSep]
        rw [hpq]
        simp [String.append_assoc]

/-- C7.  A prototype whose attribute text marks it as variadic is
translated to the empty string: no error is raised and no partial
wrapper is emitted, whatever the doc, name, arguments and return type
are. -/
theorem C7_variadic_emits_nothing (a : String) (h : containsSub a "VARARG" = true)
    (doc_raw : Option String) (f_name : String) (args : List (String × String))
    (sdl_ret : String) :
    translate_function (some a) doc_raw f_name args sdl_ret = .ok "" := by
  have hne : (a == "") = false := by
    by_cases hc : a = ""
    · rw [hc] at h
      exact absurd h (by decide)
    · simpa using hc
  simp [translate_function, is_vararg, hne, h]

/-- C7 witness: the SDL logging prototype's variadic attribute. -/
theorem C7_variadic_emits_nothing_witness :
    containsSub " SDL_PRINTF_VARARG_FUNC(1)" "VARARG" = true
    ∧ translate_function (some " SDL_PRINTF_VARARG_FUNC(1)") (some "doc") "SDL_Log"
        [("fmt", charConstPtr)] "void" = .ok "" :=
  ⟨by decide,
    C7_variadic_emits_nothing " SDL_PRINTF_VARARG_FUNC(1)" (by decide) (some "doc")
      "SDL_Log" [("fmt", charConstPtr)] "void"⟩

/-- C4.  A non-variadic prototype whose formatted documentation contains
the success/failure marker (`Returns:` section starting `True on
success`, which is how "returns true on success... false on failure"
renders) and whose mapped native return type is `Bool` is emitted
through the raising template with target-facing return type `None`: the
second conjunct spells the template out — the signature is
`fn name(args) raises: ` with no return arrow and no out-parameter, and
the body raises an error built from the library's last-error text
(`sdl_get_error`) when the native result is falsy. -/
theorem C4_bool_failure_signaling (doc_raw : Option String) (d : String)
    (hfmt : format_docblock doc_raw = .ok (some d))
    (h : containsSub d "Returns:\n        True on success" = true)
    (f_name : String) (args : List (String × String)) :
    translate_function none doc_raw f_name args "Bool"
      = .ok (fn_raises_template (some (raises_doc_rewrite d)) f_name (snake_case f_name)
          (mojo_args_of args) "None" (dylib_call f_name args "Bool"))
    ∧ fn_raises_template (some (raises_doc_rewrite d)) f_name (snake_case f_name)
          (mojo_args_of args) "None" (dylib_call f_name args "Bool")
      = "\nfn " ++ snake_case f_name ++ "(" ++ mojo_args_of args ++ ") raises: \n    "
        ++ doc_template (some (raises_doc_rewrite d)) f_name "    "
        ++ "\n    ret = " ++ dylib_call f_name args "Bool"
        ++ "\n    if not ret:\n        raise String(unsafe_from_utf8_ptr=sdl_get_error())\n\n" := by
  constructor
  · unfold translate_function
    rw [if_neg (by simp [is_vararg])]
    rw [hfmt, except_bind_ok]
    have hret : sub_string_argument "Bool" = "Bool" := by decide
    have hbs : (("Bool" : String) == "String") = false := by decide
    have hbb : (("Bool" : String) == "Bool") = true := by decide
    simp [hret, hbs, hbb, h]
  · unfold fn_raises_template
    rw [if_neg (by simp), if_neg (by simp)]
    simp [String.append_empty]

/-- C4 witness: a concrete documented boolean-returning prototype. -/
theorem C4_bool_failure_signaling_witness :
    (format_docblock (some " * Sets it.\n *\n * \\returns true on success or false on failure; call\n") = .ok (some "Sets it.\n    \n    Returns:\n        True on success or false on failure; call")
      ∧ containsSub "Sets it.\n    \n    Returns:\n        True on success or false on failure; call" "Returns:\n        True on success" = true)
    ∧ (translate_function none (some " * Sets it.\n *\n * \\returns true on success or false on failure; call\n") "SDL_SetThing" [("value", "c_int")] "Bool"
        = .ok (fn_raises_template (some (raises_doc_rewrite "Sets it.\n    \n    Returns:\n        True on success or false on failure; call")) "SDL_SetThing"
            (snake_case "SDL_SetThing") (mojo_args_of [("value", "c_int")]) "None"
            (dylib_call "SDL_SetThing" [("value", "c_int")] "Bool"))
      ∧ fn_raises_template (some (raises_doc_rewrite "Sets it.\n    \n    Returns:\n        True on success or false on failure; call")) "SDL_SetThing"
            (snake_case "SDL_SetThing") (mojo_args_of [("value", "c_int")]) "None"
            (dylib_call "SDL_SetThing" [("value", "c_int")] "Bool")
        = "\nfn " ++ snake_case "SDL_SetThing" ++ "(" ++ mojo_args_of [("value", "c_int")]
          ++ ") raises: \n    "
          ++ doc_template (some (raises_doc_rewrite "Sets it.\n    \n    Returns:\n        True on success or false on failure; call")) "SDL_SetThing" "    "
          ++ "\n    ret = " ++ dylib_call "SDL_SetThing" [("value", "c_int")] "Bool"
          ++ "\n    if not ret:\n        raise String(unsafe_from_utf8_ptr=sdl_get_error())\n\n") :=
  ⟨⟨by decide, by decide⟩,
    C4_bool_failure_signaling (some " * Sets it.\n *\n * \\returns true on success or false on failure; call\n") "Sets it.\n    \n    Returns:\n        True on success or false on failure; call" (by decide) (by decide)
      "SDL_SetThing" [("value", "c_int")]⟩

/-- C5.  An argument whose mapped type is the immutable character
pointer `Ptr[c_char, mut = False]` is exposed by the wrapper as
`owned name: String`, while the native call site passes
`name.unsafe_cstr_ptr()` — a raw pointer derived from that String — and
the native signature inside the call expression keeps the pointer type:
the String never crosses the boundary itself. -/
theorem C5_string_argument_boundary (args : List (String × String)) (i : Nat) (n : String)
    (h : args[i]? = some (n, charConstPtr)) (f_name sdl_ret : String) :
    (args.map mojo_arg_of)[i]? = some ("owned " ++ n ++ ": String")
    ∧ (args.map pass_arg_of)[i]? = some (n ++ ".unsafe_cstr_ptr()")
    ∧ (args.map render_sdl_arg)[i]? = some (n ++ ": " ++ charConstPtr)
    ∧ (∃ p q, pass_args_of args = p ++ (n ++ ".unsafe_cstr_ptr()") ++ q)
    ∧ (∃ p q, dylib_call f_name args sdl_ret = p ++ (n ++ ".unsafe_cstr_ptr()") ++ q) := by
  have h1 : (args.map mojo_arg_of)[i]? = some ("owned " ++ n ++ ": String") := by
    rw [List.getElem?_map, h]
    simp [mojo_arg_of]
  have h2 : (args.map pass_arg_of)[i]? = some (n ++ ".unsafe_cstr_ptr()") := by
    rw [List.getElem?_map, h]
    simp [pass_arg_of]
  have h3 : (args.map render_sdl_arg)[i]? = some (n ++ ": " ++ charConstPtr) := by
    rw [List.getElem?_map, h]
    simp [render_sdl_arg]
  obtain ⟨p, q, hpq⟩ := joinSep_split ", " (args.map pass_arg_of) i _ h2
  refine ⟨h1, h2, h3, ⟨p, q, hpq⟩, ?_⟩
  refine ⟨"_get_dylib_function[lib, \"" ++ f_name ++ "\", fn (" ++ sdl_args_of args
    ++ ") -> " ++ sdl_ret ++ "]()(" ++ p, q ++ ")", ?_⟩
  unfold dylib_call pass_args_of
  rw [hpq]
  simp [String.append_assoc]

/-- C5 witness: a two-argument list with a string parameter in second
position. -/
theorem C5_string_argument_boundary_witness :
    ([("x", "c_int"), ("name", charConstPtr)] : List (String × String))[1]?
      = some ("name", charConstPtr)
    ∧ (([("x", "c_int"), ("name", charConstPtr)].map mojo_arg_of)[1]?
        = some ("owned " ++ "name" ++ ": String")
      ∧ ([("x", "c_int"), ("name", charConstPtr)].map pass_arg_of)[1]?
        = some ("name" ++ ".unsafe_cstr_ptr()")
      ∧ ([("x", "c_int"), ("name", charConstPtr)].map render_sdl_arg)[1]?
        = some ("name" ++ ": " ++ charConstPtr)
      ∧ (∃ p q, pass_args_of [("x", "c_int"), ("name", charConstPtr)]
          = p ++ ("name" ++ ".unsafe_cstr_ptr()") ++ q)
      ∧ (∃ p q, dylib_call "SDL_SetThing" [("x", "c_int"), ("name", charConstPtr)] "Bool"
          = p ++ ("name" ++ ".unsafe_cstr_ptr()") ++ q)) :=
  ⟨rfl,
    C5_string_argument_boundary [("x", "c_int"), ("name", charConstPtr)] 1 "name" rfl
      "SDL_SetThing" "Bool"⟩

/-! ## Type mapping and variable parsing (gen.py lines 103-178, 388-402) -/

/-- The fixed primitive type table `type_map` (gen.py lines 105-139). -/
def type_map : List (String × String) :=
  [("void", "NoneType"), ("SDL_FunctionPointer", "fn () -> None"), ("SDL_Time", "Int64"),
   ("intptr_t", "Int"), ("char", "c_char"), ("unsigned char", "c_uint"), ("int", "c_int"),
   ("unsigned int", "c_uint"), ("short", "c_short"), ("unsigned short", "c_ushort"),
   ("long", "c_long"), ("long long", "c_long_long"), ("size_t", "c_size_t"),
   ("ssize_t", "c_ssize_t"), ("float", "c_float"), ("double", "c_double"),
   ("uint8_t", "UInt8"), ("Uint8", "UInt8"), ("uint16_t", "UInt16"), ("Uint16", "UInt16"),
   ("uint32_t", "UInt32"), ("Uint32", "UInt32"), ("uint64_t", "UInt64"),
   ("Uint64", "UInt64"), ("int8_t", "Int8"), ("Sint8", "Int8"), ("int16_t", "Int16"),
   ("Sint16", "Int16"), ("int32_t", "Int32"), ("Sint32", "Int32"), ("int64_t", "Int64"),
   ("Sint64", "Int64"), ("bool", "Bool")]

/-- Python's `type_map.get(s)`. -/
def type_map_get (s : String) : Option String :=
  (type_map.find? (fun p => p.1 == s)).map Prod.snd

/-- Python's `type_map.get(s) or s` (every table value is truthy). -/
def mapType (s : String) : String :=
  match type_map_get s with
  | some t => t
  | none => s

/-- Python's `True`/`False` rendering in an f-string. -/
def pyBool : Bool → String
  | true => "True"
  | false => "False"

/-- The capture groups of `match_variable` (and, with an empty name, of
`match_return`): const-qualification, base type text, pointer depth,
optional array extent, declared name. -/
structure VarMatch where
  constq : Bool
  type : String
  ptrs : Nat
  vecs : Option String
  name : String
deriving DecidableEq, Repr

/-- The pointer-wrapping loop of `translate_type` (gen.py lines 146-148). -/
def iterPtr (mutStr : String) : Nat → String → String
  | 0, r => r
  | k + 1, r => iterPtr mutStr k ("Ptr[" ++ r ++ ", mut = " ++ mutStr ++ "]")

/-- The source's `translate_type` (gen.py lines 141-156): strip the
`*const` spellings, look the base type up, wrap per pointer, then per
array extent (`vecs` from `match_variable`/`match_return`, `amnt` from
`match_union_member`); an empty captured extent is falsy in Python and
skipped. -/
def translate_type (constq : Bool) (type : String) (ptrs : Nat) (vecs amnt : Option String) :
    String :=
  let mutStr := pyBool (!constq)
  let r0 := pyReplace (pyReplace type " *const" "") " * const" ""
  let r1 := mapType r0
  let r2 := iterPtr mutStr ptrs r1
  let r3 := match vecs with
    | some v =>
      if v ≠ "" then "ArrayHelper[" ++ r2 ++ ", " ++ v ++ ", mut = " ++ mutStr ++ "].result"
      else r2
    | none => r2
  match amnt with
  | some a => if a ≠ "" then "InlineArray[" ++ r3 ++ ", " ++ a ++ "]" else r3
  | none => r3

/-- The suffix `\**(?P<name>\w+?)(?:\[(?P<vecs>.*?)\])?$` of
`match_variable`: a star run, a non-empty word, and optionally a
bracketed extent closing the text (the lazy extent together with the
end anchor makes the final `]` the last character). -/
def parseVarSuffix (l : List Char) : Option (Nat × String × Option String) :=
  let stars := l.takeWhile (· == '*')
  let rest := l.drop stars.length
  let w := rest.takeWhile isWordChar
  if w.isEmpty then none
  else
    match rest.drop w.length with
    | [] => some (stars.length, ⟨w⟩, none)
    | '[' :: more =>
      match more.getLast? with
      | some ']' => some (stars.length, ⟨w⟩, some ⟨more.dropLast⟩)
      | _ => none
    | _ => none

/-- The greedy `(?P<type>.+) ` split of `match_variable`: the engine
tries the rightmost space first and backtracks leftwards; this walks the
reversed text, `suf` holding the characters right of the current
position in order. -/
def parseVarRev (constq : Bool) : List Char → List Char → Option VarMatch
  | [], _ => none
  | c :: revRest, suf =>
    if c = ' ' ∧ revRest ≠ [] then
      match parseVarSuffix suf with
      | some (p, n, v) => some ⟨constq, ⟨revRest.reverse⟩, p, v, n⟩
      | none => parseVarRev constq revRest (c :: suf)
    else parseVarRev constq revRest (c :: suf)

/-- The source's `re.match(match_variable, s)` with
`match_variable = r'^(?P<mut>const )?(?P<type>.+) (?P<ptrs>\**)(?P<name>\w+?)(?:\[(?P<vecs>.*?)\])?$'`.
The optional greedy `const ` prefix is tried first and given back when
the rest cannot match. -/
def parseVariable (s : String) : Option VarMatch :=
  if "const ".data.isPrefixOf s.data then
    match parseVarRev true ((s.data.drop 6).reverse) [] with
    | some m => some m
    | none => parseVarRev false s.data.reverse []
  else parseVarRev false s.data.reverse []

/-- The source's `translate_variable` (gen.py lines 171-172). -/
def translate_variable (m : VarMatch) : String :=
  snake_case m.name ++ ": " ++ translate_type m.constq m.type m.ptrs m.vecs none

/-- The suffix `\**(\[(.*?)\])?$` of `match_return` (no name group). -/
def parseRetSuffix (l : List Char) : Option (Nat × Option String) :=
  let stars := l.takeWhile (· == '*')
  match l.drop stars.length with
  | [] => some (stars.length, none)
  | '[' :: more =>
    match more.getLast? with
    | some ']' => some (stars.length, some ⟨more.dropLast⟩)
    | _ => none
  | _ => none

/-- The lazy `(?P<type>.+?) ?` walk of `match_return`: shortest type
first; at each candidate the greedy optional space is tried consumed
first, then not consumed. -/
def parseRetAux (constq : Bool) (pre : List Char) : List Char → Option VarMatch
  | [] => none
  | c :: rest =>
    (match rest with
     | ' ' :: rest2 =>
       match parseRetSuffix rest2 with
       | some (p, v) => some ⟨constq, ⟨(pre ++ [c])⟩, p, v, ""⟩
       | none => none
     | _ => none)
    <|> (match parseRetSuffix rest with
     | some (p, v) => some ⟨constq, ⟨(pre ++ [c])⟩, p, v, ""⟩
     | none => none)
    <|> parseRetAux constq (pre ++ [c]) rest

/-- The source's `re.match(match_return, s)` with
`match_return = r'^(?P<mut>const )?(?P<type>.+?) ?(?P<ptrs>\**)(?:\[(?P<vecs>.*?)\])?$'`. -/
def parseReturn (s : String) : Option VarMatch :=
  if "const ".data.isPrefixOf s.data then
    match parseRetAux true [] (s.data.drop 6) with
    | some m => some m
    | none => parseRetAux false [] s.data
  else parseRetAux false [] s.data

/-- The source's `translate_return_type` (gen.py lines 161-162): `None`
when the whole match — the whole anchored text — is `void`, otherwise
the mapped type; a failed match makes the subscript on the `None` match
object raise `TypeError`. -/
def translate_return_type (s : String) : Except PyErr String :=
  match parseReturn s with
  | none => .error .typeError
  | some m =>
    .ok (if s = "void" then "None" else translate_type m.constq m.type m.ptrs m.vecs none)

/-- Splitting on the comma characters (which `match_argument` never
consumes, so they survive any sub over the pieces). -/
def splitCommaAux (acc : List Char) : List Char → List (List Char)
  | [] => [acc.reverse]
  | c :: cs => if c == ',' then acc.reverse :: splitCommaAux [] cs else splitCommaAux (c :: acc) cs

/-- One piece of `re.sub(match_argument, translate_argument, args)` with
`match_argument = r'(?:(?<=,)|^)\s*(.+?)(?:(?=,)|$)'` and
`translate_argument` (gen.py lines 499-500): the full match (the whole
piece) equal to `void` becomes nothing; otherwise the piece minus its
leading whitespace is parsed as a variable and rendered with one leading
space; a whitespace-only piece has no match and survives; a parse
failure subscripts `None` and raises `TypeError`. -/
def translate_argument_piece (p : List Char) : Except PyErr (List Char) :=
  if p = "void".data then .ok []
  else
    let g1 := p.dropWhile isPyWsp
    if g1.isEmpty then .ok p
    else
      match parseVariable ⟨g1⟩ with
      | some m => .ok (' ' :: (translate_variable m).data)
      | none => .error .typeError

/-- The whole argument-list sub of gen.py line 177/534. -/
def sub_arguments (args : String) : Except PyErr String := do
  let outs ← (splitCommaAux [] args.data).mapM translate_argument_piece
  .ok ⟨(outs.intersperse [',']).flatten⟩

/-- The source's `re.match(match_function_pointer, s)` with
`match_function_pointer = r'^(?P<ret>.*?) \(SDLCALL \*(?P<name>\w*)\)\((?P<args>.*?)\)'`:
the lazy return text before the first ` (SDLCALL *`, the possibly-empty
name, and the argument text up to the first closing parenthesis.  (For
the single-occurrence field texts the translator meets, trying the first
occurrence is the whole search.) -/
def parseFunctionPointer (s : String) : Option (String × String × String) :=
  match subIdx? " (SDLCALL *".data s.data with
  | none => none
  | some i =>
    let ret := s.data.take i
    let rest := s.data.drop (i + 11)
    let w := rest.takeWhile isWordChar
    match rest.drop w.length with
    | ')' :: '(' :: rest2 =>
      match subIdx? [')'] rest2 with
      | none => none
      | some j => some (⟨ret⟩, ⟨w⟩, ⟨rest2.take j⟩)
    | _ => none

/-- The source's `translate_function_pointer` (gen.py lines 174-178):
Python's implicit `None` when the match failed. -/
def translate_function_pointer (s : String) : Except PyErr (Option String) :=
  match parseFunctionPointer s with
  | none => .ok none
  | some (ret, name, fargs) => do
    let r ← translate_return_type ret
    let a ← sub_arguments fargs
    .ok (some (snake_case name ++ ": fn (" ++ a ++ ") -> " ++ r))

/-- The source's `translate_field` (gen.py lines 393-396) on the
captured groups: the function-pointer reading wins when its match
succeeds (`or` falls through on its `None`), the docstring comes from
the pre-comment when truthy, else from the post-comment, and is omitted
when absent. -/
def translate_field (pre_doc post_doc : Option String) (field : String) :
    Except PyErr String := do
  let fp ← translate_function_pointer field
  let var ← match fp with
    | some v => pure v
    | none =>
      match parseVariable field with
      | some m => pure (translate_variable m)
      | none => Except.error PyErr.typeError
  let docIn := match pre_doc with
    | some p => if p ≠ "" then some p else post_doc
    | none => post_doc
  let doc ← format_docblock docIn
  match doc with
  | some d => .ok ("    var " ++ var ++ "\n    \"\"\"" ++ d ++ "\"\"\"")
  | none => .ok ("    var " ++ var)

/-! ## Struct bodies (gen.py lines 388-463, claim C8) -/

/-- One line of `re.sub(match_field, translate_field, body)` with
`match_field = r'(?:^ */\*\*?\s*(?P<pre_doc>[\S\s]*?)\s*\*/\n)?    (?P<field>.+?); *(?:/\*\*< (?P<post_doc>[\S\s]*?) \*/)?'`
for bodies in the SDL headers' one-field-per-line shape: a line
`    FIELD; ` with an optional `/**< DOC */` trailer is rewritten by
`translate_field`; text after the match (the newline) survives.  The
multi-line `pre_doc` comment alternative is not represented: the bodies
the claims quantify over contain no comment blocks, and it only selects
which doc text is attached, not how the field itself is translated. -/
def fieldSubLine (l : List Char) : Except PyErr (List Char) :=
  if "    ".data.isPrefixOf l then
    let inner := l.drop 4
    match subIdx? [';'] inner with
    | none => .ok l
    | some k =>
      if k = 0 then .ok l
      else
        let field : String := ⟨inner.take k⟩
        let rest := (inner.drop (k + 1)).dropWhile (· == ' ')
        match rest with
        | '/' :: '*' :: '*' :: '<' :: ' ' :: more =>
          (match subIdx? " */".data more with
           | some j => do
             let out ← translate_field none (some ⟨more.take j⟩) field
             .ok (out.data ++ more.drop (j + 3))
           | none => do
             let out ← translate_field none none field
             .ok (out.data ++ rest))
        | _ => do
          let out ← translate_field none none field
          .ok (out.data ++ rest)
  else .ok l

/-- The whole field sub over a body. -/
def sub_fields (body : String) : Except PyErr String := do
  let outs ← (splitLines body.data).mapM fieldSubLine
  .ok ⟨outs.flatten⟩

/-- One item ` \*?\w+?,` of `match_multi_field`'s second group (the
greedy optional star backtracks to nothing only when no word follows,
which then fails anyway). -/
def parseCommaItem (l : List Char) : Option (List Char) :=
  match l with
  | ' ' :: rest =>
    let rest2 := if rest.head? == some '*' then rest.tail else rest
    let w := rest2.takeWhile isWordChar
    if w.isEmpty then none
    else
      match rest2.drop w.length with
      | ',' :: r => some r
      | _ => none
  | _ => none

/-- The closing item ` \w+;` of `match_multi_field`'s second group. -/
def parseFinalItem (l : List Char) : Option (List Char) :=
  match l with
  | ' ' :: rest =>
    let w := rest.takeWhile isWordChar
    if w.isEmpty then none
    else
      match rest.drop w.length with
      | ';' :: r => some r
      | _ => none
  | _ => none

/-- The group `(?: \*?\w+?,)+ \w+;`: one or more comma items then the
closing item (the two item shapes end in different punctuation, so the
greedy repetition is deterministic).  Returns the text after the
match. -/
def multiItemsFuel : Nat → List Char → Bool → Option (List Char)
  | 0, _, _ => none
  | fuel + 1, l, seen =>
    match parseCommaItem l with
    | some r => multiItemsFuel fuel r true
    | none => if seen then parseFinalItem l else none

/-- The lazy `(.+?)` split of `match_multi_field`: the shortest first
group such that the name-list group parses right after it.  Returns the
two captured groups and the text after the match. -/
def multiSplitFuel : Nat → List Char → List Char → Option (List Char × List Char × List Char)
  | 0, _, _ => none
  | fuel + 1, g1Rev, rem =>
    (if g1Rev.isEmpty then none
     else
       match multiItemsFuel rem.length rem false with
       | some rest => some (g1Rev.reverse, rem.take (rem.length - rest.length), rest)
       | none => none)
    <|> match rem with
        | [] => none
        | c :: rs => multiSplitFuel fuel (c :: g1Rev) rs

/-- The name extractor of `split_multifield`,
`re.finditer(r' (\w+?)[,;]', group2)`: every space-preceded word closed
by a comma or semicolon, left to right. -/
def multiNamesFuel : Nat → List Char → List (List Char)
  | 0, _ => []
  | _ + 1, [] => []
  | fuel + 1, c :: cs =>
    if c = ' ' then
      let w := cs.takeWhile isWordChar
      if w.isEmpty then multiNamesFuel fuel cs
      else
        match cs.drop w.length with
        | d :: r =>
          if d == ',' || d == ';' then w :: multiNamesFuel fuel r
          else multiNamesFuel fuel cs
        | [] => multiNamesFuel fuel cs
    else multiNamesFuel fuel cs

/-- The source's `split_multifield` (gen.py lines 398-402): one
`    TYPE NAME;` line per extracted name. -/
def split_multifield (g1 g2 : List Char) : List Char :=
  ((multiNamesFuel g2.length g2).map
    (fun n => "    ".data ++ g1 ++ (' ' :: n) ++ ";\n".data)).flatten

/-- One line of `re.sub(match_multi_field, split_multifield, body)` with
`match_multi_field = r'    (.+?)((?: \*?\w+?,)+ \w+;)'` for bodies in
the one-field-per-line shape (the match is tried at the line's start,
the only place it can begin on such lines); text after the match
survives. -/
def multiFieldSubLine (l : List Char) : List Char :=
  if "    ".data.isPrefixOf l then
    match multiSplitFuel ((l.drop 4).length + 1) [] (l.drop 4) with
    | some (g1, g2, rest) => split_multifield g1 g2 ++ rest
    | none => l
  else l

/-- The whole multi-field sub over a body (gen.py line 452). -/
def sub_multi_field (body : String) : String :=
  ⟨((splitLines body.data).map multiFieldSubLine).flatten⟩

/-- The hand-authored `translate_gamepadbinding` special case (gen.py
lines 574-642), substituted for `SDL_GamepadBinding`. -/
def translate_gamepadbinding (doc : Option String) : String :=
  "\n@value\n@register_passable(\"trivial\")\nstruct SDL_GamepadBindingInputAxis:\n    var axis: c_int\n    var axis_min: c_int\n    var axis_max: c_int\n\n\n@value\n@register_passable(\"trivial\")\nstruct SDL_GamepadBindingInputHat:\n    var hat: c_int\n    var hat_mask: c_int\n\n\n@value\n@register_passable(\"trivial\")\nstruct SDL_GamepadBindingInput:\n    alias _mlir_type = __mlir_type[`!pop.union<`, SDL_GamepadBindingInputAxis, `, `, SDL_GamepadBindingInputHat, `>`]\n    var _impl: Self._mlir_type\n\n    @implicit\n    fn __init__[T: AnyType](out self, value: T):\n        self._impl = rebind[Self._mlir_type](value)\n\n    fn __getitem__[T: AnyType](ref self) -> ref [self] T:\n        return rebind[Ptr[T]](Ptr(to=self._impl))[]\n\n\n@value\n@register_passable(\"trivial\")\nstruct SDL_GamepadBindingOutputAxis:\n    var axis: SDL_GamepadAxis\n    var axis_min: c_int\n    var axis_max: c_int\n\n\n@value\n@register_passable(\"trivial\")\nstruct SDL_GamepadBindingOutput:\n    alias _mlir_type = __mlir_type[`!pop.union<`, SDL_GamepadButton, `, `, SDL_GamepadBindingOutputAxis, `>`]\n    var _impl: Self._mlir_type\n\n    @implicit\n    fn __init__[T: AnyType](out self, value: T):\n        self._impl = rebind[Self._mlir_type](value)\n\n    fn __getitem__[T: AnyType](ref self) -> ref [self] T:\n        return rebind[Ptr[T]](Ptr(to=self._impl))[]\n\n\n@value\n@register_passable(\"trivial\")\nstruct SDL_GamepadBinding:\n    \"\"\"" ++ pyStrOpt doc ++ "\n\n    Docs: https://wiki.libsdl.org/SDL3/SDL_GamepadBinding.\n    \"\"\"\n    var input_type: SDL_GamepadBindingType\n    var input: SDL_GamepadBindingInput\n\n    var output_type: SDL_GamepadBindingType\n    var output: SDL_GamepadBindingOutput\n"

/-- The source's `translate_struct` (gen.py lines 406-417): the plain
struct translator applies the field sub to the body directly — it does
NOT run `split_multifield` first. -/
def translate_struct (doc : Option String) (name body : String) : Except PyErr String := do
  let d ← format_docblock doc
  let b ← sub_fields body
  .ok ("\n@value\nstruct " ++ name ++ ":\n    " ++ doc_template d name "    " ++
    "\n    \n" ++ b ++ "\n")

/-- The source's `translate_typedef_struct` (gen.py lines 444-463): the
`SDL_GamepadBinding` override, then the multi-field expansion, then the
field sub, then the `SDL_StorageInterface` rename. -/
def translate_typedef_struct (doc : Option String) (name body : String) :
    Except PyErr String := do
  let d ← format_docblock doc
  if name = "SDL_GamepadBinding" then .ok (translate_gamepadbinding d)
  else do
    let b0 := sub_multi_field body
    let b1 ← sub_fields b0
    let b2 := if name = "SDL_StorageInterface"
      then pyReplace b1 "var copy: fn" "var copy_file: fn" else b1
    .ok ("\n@value\nstruct " ++ name ++ ":\n    " ++ doc_template d name "    " ++
      "\n    \n" ++ b2 ++ "\n")

/-- C8 counterexample.  The claim covers both struct and typedef-struct
translations, but only `translate_typedef_struct` runs the multi-field
expansion: on the body `    Uint8 x, y;` the typedef-struct translation
emits one field per name with the shared type, while `translate_struct`
feeds the unexpanded line straight to field translation, which emits a
single garbled field `var y: Uint8 x,` and no field for `x` at all. -/
theorem C8_struct_not_expanded_counterexample :
    sub_multi_field "    Uint8 x, y;\n" = "    Uint8 x;\n    Uint8 y;\n\n"
    ∧ (translate_typedef_struct none "SDL_T" "    Uint8 x, y;\n").map
        (fun t => containsSub t "var x: UInt8" && containsSub t "var y: UInt8") = .ok true
    ∧ sub_fields "    Uint8 x, y;\n" = .ok "    var y: Uint8 x,\n"
    ∧ (translate_struct none "SDL_S" "    Uint8 x, y;\n").map
        (fun t => containsSub t "var x") = .ok false
    ∧ (translate_struct none "SDL_S" "    Uint8 x, y;\n").map
        (fun t => containsSub t "var y: Uint8 x,") = .ok true := by
  refine ⟨by decide, by decide, by decide, by decide, by decide⟩


/-- A non-empty all-word-character name (the shape `\w+` captures). -/
def wordish (w : List Char) : Bool := !w.isEmpty && w.all isWordChar

/-- A word run followed by a non-matching character splits `takeWhile`
and `dropWhile`. -/
theorem takeWhile_run (p : Char → Bool) (w : List Char) (hw : ∀ c ∈ w, p c = true)
    (rest : List Char) (hr : ∀ c, rest.head? = some c → p c = false) :
    (w ++ rest).takeWhile p = w ∧ (w ++ rest).dropWhile p = rest := by
  induction w with
  | nil =>
    cases rest with
    | nil => exact ⟨rfl, rfl⟩
    | cons c cs =>
      have := hr c rfl
      simp [List.takeWhile, List.dropWhile, this]
  | cons a w2 ih =>
    have ha : p a = true := hw a (by simp)
    have ih2 := ih (fun c hc => hw c (by simp [hc]))
    simp [List.takeWhile, List.dropWhile, ha, ih2.1, ih2.2]

/-- The name sequence ` n1, n2, ..., nk;` of a multi-name field line as
the second capture group of `match_multi_field` holds it. -/
def renderNamesTail : List (List Char) → List Char
  | [] => []
  | [n] => ' ' :: (n ++ [';'])
  | n :: rest => ' ' :: (n ++ ',' :: renderNamesTail rest)

/-- A word character is none of the punctuation characters the scanners
key on. -/
theorem wordChar_ne (c : Char) (h : isWordChar c = true) :
    c ≠ '*' ∧ c ≠ ' ' ∧ c ≠ ',' ∧ c ≠ ';' ∧ c ≠ '\n' ∧ c ≠ '(' ∧ c ≠ '/' := by
  refine ⟨?_, ?_, ?_, ?_, ?_, ?_, ?_⟩ <;> (intro hc; rw [hc] at h; exact absurd h (by decide))

/-- Unpacking `wordish`. -/
theorem wordish_spec (n : List Char) (hn : wordish n = true) :
    n ≠ [] ∧ ∀ c ∈ n, isWordChar c = true := by
  simp only [wordish, Bool.and_eq_true, List.all_eq_true, Bool.not_eq_true'] at hn
  exact ⟨by simpa [List.isEmpty_iff] using hn.1, hn.2⟩

/-- A comma item parses off a rendered `name,` chunk. -/
theorem parseCommaItem_render (n : List Char) (hn : wordish n = true) (t : List Char) :
    parseCommaItem (' ' :: (n ++ ',' :: t)) = some t := by
  obtain ⟨hne, hall⟩ := wordish_spec n hn
  have hsplit := takeWhile_run isWordChar n hall (',' :: t) (fun c hc => by cases hc; decide)
  have hstar : ((n ++ ',' :: t).head? == some '*') = false := by
    cases n with
    | nil => exact absurd rfl hne
    | cons a n2 =>
      have ha := hall a (by simp)
      simpa using (wordChar_ne a ha).1
  simp only [parseCommaItem, hstar, if_false, Bool.false_eq_true, hsplit.1]
  rw [if_neg (by simpa using hne), List.drop_left]
  rfl

/-- A comma item does not parse a rendered final `name;` chunk. -/
theorem parseCommaItem_final (n : List Char) (hn : wordish n = true) (t : List Char) :
    parseCommaItem (' ' :: (n ++ ';' :: t)) = none := by
  obtain ⟨hne, hall⟩ := wordish_spec n hn
  have hsplit := takeWhile_run isWordChar n hall (';' :: t) (fun c hc => by cases hc; decide)
  have hstar : ((n ++ ';' :: t).head? == some '*') = false := by
    cases n with
    | nil => exact absurd rfl hne
    | cons a n2 =>
      have ha := hall a (by simp)
      simpa using (wordChar_ne a ha).1
  simp only [parseCommaItem, hstar, if_false, Bool.false_eq_true, hsplit.1]
  rw [if_neg (by simpa using hne), List.drop_left]
  rfl

/-- A comma item needs a leading space. -/
theorem parseCommaItem_not_space (l : List Char) (h : l.head? ≠ some ' ') :
    parseCommaItem l = none := by
  cases l with
  | nil => rfl
  | cons c cs =>
    have hc : c ≠ ' ' := fun hcon => h (by rw [hcon]; rfl)
    simp only [parseCommaItem]
    split
    · rename_i rest heq
      injection heq with h1 _
      exact absurd h1 hc
    · rfl

/-- The closing item parses off a rendered final `name;` chunk. -/
theorem parseFinalItem_render (n : List Char) (hn : wordish n = true) (t : List Char) :
    parseFinalItem (' ' :: (n ++ ';' :: t)) = some t := by
  obtain ⟨hne, hall⟩ := wordish_spec n hn
  have hsplit := takeWhile_run isWordChar n hall (';' :: t) (fun c hc => by cases hc; decide)
  simp only [parseFinalItem, hsplit.1]
  rw [if_neg (by simpa using hne), List.drop_left]
  rfl

/-- The closing item needs a leading space. -/
theorem parseFinalItem_not_space (l : List Char) (h : l.head? ≠ some ' ') :
    parseFinalItem l = none := by
  cases l with
  | nil => rfl
  | cons c cs =>
    have hc : c ≠ ' ' := fun hcon => h (by rw [hcon]; rfl)
    simp only [parseFinalItem]
    split
    · rename_i rest heq
      injection heq with h1 _
      exact absurd h1 hc
    · rfl

/-- The rendered name sequence has at least one character per name. -/
theorem renderNamesTail_length (ns : List (List Char)) :
    ns.length ≤ (renderNamesTail ns).length := by
  induction ns with
  | nil => simp [renderNamesTail]
  | cons n rest ih =>
    cases rest with
    | nil => simp [renderNamesTail]
    | cons m r2 =>
      simp only [renderNamesTail, List.length_cons, List.length_append] at ih ⊢
      omega

/-- After the first comma item, the item loop consumes the rendered
sequence and stops right after the semicolon. -/
theorem multiItemsFuel_render_seen (ns : List (List Char))
    (hns : ∀ n ∈ ns, wordish n = true) (hne : ns ≠ []) (tail : List Char) :
    ∀ fuel, ns.length ≤ fuel →
      multiItemsFuel fuel (renderNamesTail ns ++ tail) true = some tail := by
  induction ns with
  | nil => exact absurd rfl hne
  | cons n rest ih =>
    intro fuel hf
    cases fuel with
    | zero => simp at hf
    | succ f =>
      cases rest with
      | nil =>
        have hren : renderNamesTail [n] ++ tail = ' ' :: (n ++ ';' :: tail) := by
          simp [renderNamesTail]
        rw [hren]
        simp only [multiItemsFuel, parseCommaItem_final n (hns n (by simp)) tail,
          parseFinalItem_render n (hns n (by simp)) tail]
        simp
      | cons m r2 =>
        have hren : renderNamesTail (n :: m :: r2) ++ tail
            = ' ' :: (n ++ ',' :: (renderNamesTail (m :: r2) ++ tail)) := by
          simp [renderNamesTail]
        rw [hren]
        simp only [multiItemsFuel, parseCommaItem_render n (hns n (by simp))]
        exact ih (fun x hx => hns x (by simp [hx])) (by simp) f
          (by simp only [List.length_cons] at hf ⊢; omega)

/-- From a cold start the item loop consumes a two-or-more-name rendered
sequence. -/
theorem multiItemsFuel_render (ns : List (List Char))
    (hns : ∀ n ∈ ns, wordish n = true) (h2 : 2 ≤ ns.length) (tail : List Char) :
    ∀ fuel, ns.length ≤ fuel →
      multiItemsFuel fuel (renderNamesTail ns ++ tail) false = some tail := by
  intro fuel hf
  cases ns with
  | nil => simp at h2
  | cons n rest =>
    cases rest with
    | nil => simp at h2
    | cons m r2 =>
      cases fuel with
      | zero => simp at hf
      | succ f =>
        have hren : renderNamesTail (n :: m :: r2) ++ tail
            = ' ' :: (n ++ ',' :: (renderNamesTail (m :: r2) ++ tail)) := by
          simp [renderNamesTail]
        rw [hren]
        simp only [multiItemsFuel, parseCommaItem_render n (hns n (by simp))]
        exact multiItemsFuel_render_seen (m :: r2) (fun x hx => hns x (by simp [hx]))
          (by simp) tail f (by simp only [List.length_cons] at hf ⊢; omega)

/-- The item loop fails immediately on text that does not start with a
space (in particular inside the type word of a field line). -/
theorem multiItemsFuel_not_space (l : List Char) (h : l.head? ≠ some ' ') (fuel : Nat) :
    multiItemsFuel fuel l false = none := by
  cases fuel with
  | zero => rfl
  | succ f => simp [multiItemsFuel, parseCommaItem_not_space l h]

/-- The lazy split of `match_multi_field` walks over the type word and
captures it as the first group, the rendered name sequence as the
second, and leaves the rest. -/
theorem multiSplitFuel_render (ns : List (List Char))
    (hns : ∀ n ∈ ns, wordish n = true) (h2 : 2 ≤ ns.length) (tail : List Char) :
    ∀ (T2 : List Char), (∀ c ∈ T2, isWordChar c = true) →
    ∀ (g1Rev : List Char), g1Rev ≠ [] ∨ T2 ≠ [] →
    ∀ fuel, T2.length + 1 ≤ fuel →
      multiSplitFuel fuel g1Rev (T2 ++ renderNamesTail ns ++ tail)
        = some (g1Rev.reverse ++ T2, renderNamesTail ns, tail) := by
  intro T2
  induction T2 with
  | nil =>
    intro _ g1Rev hg fuel hf
    have hg2 : g1Rev ≠ [] := by
      rcases hg with h | h
      · exact h
      · exact absurd rfl h
    cases fuel with
    | zero => simp at hf
    | succ f =>
      simp only [multiSplitFuel, List.nil_append]
      rw [if_neg (by simpa using hg2)]
      have hitems : multiItemsFuel (renderNamesTail ns ++ tail).length
          (renderNamesTail ns ++ tail) false = some tail := by
        refine multiItemsFuel_render ns hns h2 tail _ ?_
        have := renderNamesTail_length ns
        simp only [List.length_append]
        omega
      rw [hitems]
      have htake : (renderNamesTail ns ++ tail).take
          ((renderNamesTail ns ++ tail).length - tail.length) = renderNamesTail ns := by
        have hl : (renderNamesTail ns ++ tail).length - tail.length
            = (renderNamesTail ns).length := by
          simp only [List.length_append]
          omega
        rw [hl, List.take_left]
      simp only [htake]
      simp
  | cons c T2r ih =>
    intro hT2 g1Rev _ fuel hf
    cases fuel with
    | zero => simp at hf
    | succ f =>
      have hc : isWordChar c = true := hT2 c (by simp)
      have hfirst : multiItemsFuel ((c :: T2r) ++ renderNamesTail ns ++ tail).length
          ((c :: T2r) ++ renderNamesTail ns ++ tail) false = none := by
        refine multiItemsFuel_not_space _ ?_ _
        simp only [List.cons_append, List.head?_cons]
        intro hcon
        injection hcon with hcon
        exact (wordChar_ne c hc).2.1 hcon
      simp only [multiSplitFuel, List.cons_append]
      have hfirst2 : multiItemsFuel (c :: (T2r ++ renderNamesTail ns ++ tail)).length
          (c :: (T2r ++ renderNamesTail ns ++ tail)) false = none := by
        simpa using hfirst
      rw [hfirst2]
      have hrec := ih (fun x hx => hT2 x (by simp [hx])) (c :: g1Rev) (Or.inl (by simp))
        f (by simp only [List.length_cons] at hf; omega)
      simp only [List.append_assoc] at hrec ⊢
      rw [hrec]
      simp [List.reverse_cons, List.append_assoc]

/-- The name extractor returns nothing on empty input. -/
theorem multiNamesFuel_nil_input : ∀ fuel, multiNamesFuel fuel [] = [] := by
  intro fuel
  cases fuel with
  | zero => rfl
  | succ f => rfl

/-- One unfolding step of the name extractor. -/
theorem multiNamesFuel_cons (fuel : Nat) (c : Char) (cs : List Char) :
    multiNamesFuel (fuel + 1) (c :: cs)
      = if c = ' ' then
          (let w := cs.takeWhile isWordChar
           if w.isEmpty then multiNamesFuel fuel cs
           else
             match cs.drop w.length with
             | d :: r =>
               if d == ',' || d == ';' then w :: multiNamesFuel fuel r
               else multiNamesFuel fuel cs
             | [] => multiNamesFuel fuel cs)
        else multiNamesFuel fuel cs := rfl

/-- The name extractor reads exactly the names back off the rendered
sequence. -/
theorem multiNamesFuel_render (ns : List (List Char))
    (hns : ∀ n ∈ ns, wordish n = true) :
    ∀ fuel, ns.length ≤ fuel → multiNamesFuel fuel (renderNamesTail ns) = ns := by
  induction ns with
  | nil => intro fuel _; exact multiNamesFuel_nil_input fuel
  | cons n rest ih =>
    intro fuel hf
    cases fuel with
    | zero => simp at hf
    | succ f =>
      obtain ⟨hne, hall⟩ := wordish_spec n (hns n (by simp))
      have hemp : n.isEmpty = false := by
        cases n with
        | nil => exact absurd rfl hne
        | cons a l => rfl
      cases rest with
      | nil =>
        have hsplit := takeWhile_run isWordChar n hall [';']
          (fun c hc => by cases hc; decide)
        have hren : renderNamesTail [n] = ' ' :: (n ++ [';']) := rfl
        rw [hren, multiNamesFuel_cons, if_pos rfl]
        simp only [hsplit.1]
        rw [if_neg (by simp [hemp])]
        have hdrop : (n ++ [';']).drop n.length = [';'] := List.drop_left n [';']
        rw [hdrop]
        simp [multiNamesFuel_nil_input]
      | cons m r2 =>
        have hsplit := takeWhile_run isWordChar n hall (',' :: renderNamesTail (m :: r2))
          (fun c hc => by cases hc; decide)
        have hren : renderNamesTail (n :: m :: r2)
            = ' ' :: (n ++ ',' :: renderNamesTail (m :: r2)) := rfl
        rw [hren, multiNamesFuel_cons, if_pos rfl]
        simp only [hsplit.1]
        rw [if_neg (by simp [hemp])]
        have hdrop : (n ++ ',' :: renderNamesTail (m :: r2)).drop n.length
            = ',' :: renderNamesTail (m :: r2) := List.drop_left n _
        rw [hdrop]
        have hrec := ih (fun x hx => hns x (by simp [hx])) f
          (by simp only [List.length_cons] at hf ⊢; omega)
        simp [hrec]

/-- Splitting a newline-terminated chunk peels it off as one line. -/
theorem splitLinesAux_chunk (c : List Char) (hc : ∀ x ∈ c, x ≠ '\n') :
    ∀ (acc rest : List Char),
      splitLinesAux acc (c ++ '\n' :: rest)
        = (acc.reverse ++ c ++ ['\n']) :: splitLinesAux [] rest := by
  induction c with
  | nil => intro acc rest; simp [splitLinesAux]
  | cons a c2 ih =>
    intro acc rest
    have ha : (a == '\n') = false := by simpa using hc a (by simp)
    simp only [List.cons_append, splitLinesAux, ha, Bool.false_eq_true, if_false,
      List.append_eq]
    rw [ih (fun x hx => hc x (by simp [hx])) (a :: acc) rest]
    simp

/-- The lines of a concatenation of newline-terminated chunks are the
chunks, each keeping its newline, plus a final empty chunk. -/
theorem splitLines_chunks (chunks : List (List Char))
    (h : ∀ ch ∈ chunks, ∀ x ∈ ch, x ≠ '\n') :
    splitLines ((chunks.map (· ++ ['\n'])).flatten)
      = chunks.map (· ++ ['\n']) ++ [[]] := by
  induction chunks with
  | nil => rfl
  | cons c cs ih =>
    simp only [List.map_cons, List.flatten_cons, splitLines]
    have hshape : (c ++ ['\n']) ++ (cs.map (· ++ ['\n'])).flatten
        = c ++ '\n' :: (cs.map (· ++ ['\n'])).flatten := by simp
    rw [hshape, splitLinesAux_chunk c (h c (by simp)) [] _]
    have hih := ih (fun ch hch => h ch (by simp [hch]))
    simp only [splitLines] at hih
    rw [hih]
    simp

/-- `str.replace` is the identity when the pattern head never occurs. -/
theorem replaceFuel_no_head (p : Char) (pt repl : List Char) :
    ∀ (s : List Char), p ∉ s → ∀ fuel, replaceFuel (p :: pt) repl fuel s = s := by
  intro s
  induction s with
  | nil => intro _ fuel; cases fuel <;> rfl
  | cons c cs ih =>
    intro h fuel
    cases fuel with
    | zero => rfl
    | succ f =>
      simp only [replaceFuel]
      rw [if_neg (by
        rw [List.isPrefixOf_iff_prefix, List.cons_prefix_cons]
        rintro ⟨h1, -⟩
        exact h (by simp [h1])), ih (fun hm => h (by simp [hm])) f]

/-- First occurrence of a single character appearing right after a run
that avoids it. -/
theorem subIdx?_single (d : Char) (xs : List Char) (h : d ∉ xs) (rest : List Char) :
    subIdx? [d] (xs ++ d :: rest) = some xs.length := by
  induction xs with
  | nil =>
    simp only [List.nil_append, subIdx?]
    rw [if_pos (by rw [List.isPrefixOf_iff_prefix, List.cons_prefix_cons]; exact ⟨rfl, by simp⟩)]
    rfl
  | cons a as ih =>
    simp only [List.cons_append, subIdx?, List.append_eq]
    rw [if_neg (by
      rw [List.isPrefixOf_iff_prefix, List.cons_prefix_cons]
      rintro ⟨h1, -⟩
      exact h (by simp [h1])), ih (fun hm => h (by simp [hm]))]
    rfl

/-- `mapM` over mapped inputs with pointwise-ok results. -/
theorem mapM_map_ok {α β γ : Type} (f : β → Except PyErr γ) (r : α → β) (g : α → γ) :
    ∀ (l : List α), (∀ a ∈ l, f (r a) = .ok (g a)) →
      (l.map r).mapM f = .ok (l.map g) := by
  intro l
  induction l with
  | nil => intro _; rfl
  | cons a as ih =>
    intro h
    rw [List.map_cons, List.mapM_cons, h a (by simp),
      ih (fun x hx => h x (by simp [hx]))]
    rfl

/-- `mapM` distributes over append when both halves succeed. -/
theorem mapM_append_ok {α β : Type} (f : α → Except PyErr β) :
    ∀ (l1 : List α) (l2 : List α) (b1 b2 : List β),
      l1.mapM f = .ok b1 → l2.mapM f = .ok b2 → (l1 ++ l2).mapM f = .ok (b1 ++ b2) := by
  intro l1
  induction l1 with
  | nil =>
    intro l2 b1 b2 h1 h2
    simp only [List.mapM_nil] at h1
    cases h1
    simpa using h2
  | cons a as ih =>
    intro l2 b1 b2 h1 h2
    rw [List.mapM_cons] at h1
    cases hfa : f a with
    | error e => rw [hfa] at h1; exact absurd h1 (by simp [except_bind_ok]; exact fun h => nomatch h)
    | ok b =>
      rw [hfa, except_bind_ok] at h1
      cases has : as.mapM f with
      | error e => rw [has] at h1; exact absurd h1 (by intro hcon; exact nomatch hcon)
      | ok bs =>
        rw [has, except_bind_ok] at h1
        have hb1 : b1 = b :: bs := by
          have := h1
          simp only [except_pure_eq_ok] at this
          exact (Except.ok.inj this).symm
        subst hb1
        rw [List.cons_append, List.mapM_cons, hfa, except_bind_ok,
          ih l2 bs b2 has h2, except_bind_ok]
        rfl

/-- Every character of a rendered name sequence is a space, a comma, a
semicolon or a word character. -/
theorem renderNamesTail_chars (ns : List (List Char))
    (hns : ∀ n ∈ ns, wordish n = true) :
    ∀ c ∈ renderNamesTail ns, c = ' ' ∨ c = ',' ∨ c = ';' ∨ isWordChar c = true := by
  induction ns with
  | nil => intro c hc; simp [renderNamesTail] at hc
  | cons n rest ih =>
    obtain ⟨-, hall⟩ := wordish_spec n (hns n (by simp))
    cases rest with
    | nil =>
      intro c hc
      simp only [renderNamesTail, List.mem_cons, List.mem_append] at hc
      rcases hc with h | h | h | h
      · exact Or.inl h
      · exact Or.inr (Or.inr (Or.inr (hall c h)))
      · exact Or.inr (Or.inr (Or.inl h))
      · simp at h
    | cons m r2 =>
      intro c hc
      simp only [renderNamesTail, List.mem_cons, List.mem_append] at hc
      rcases hc with h | h | h | h
      · exact Or.inl h
      · exact Or.inr (Or.inr (Or.inr (hall c h)))
      · exact Or.inr (Or.inl h)
      · exact ih (fun x hx => hns x (by simp [hx])) c h

/-- The variable-suffix group on a bare word: no stars, the word itself,
no extent. -/
theorem parseVarSuffix_word (n : List Char) (hn : wordish n = true) :
    parseVarSuffix n = some (0, ⟨n⟩, none) := by
  obtain ⟨hne, hall⟩ := wordish_spec n hn
  have hstars : n.takeWhile (· == '*') = [] := by
    cases n with
    | nil => exact absurd rfl hne
    | cons a l =>
      have ha := (wordChar_ne a (hall a (by simp))).1
      simp [List.takeWhile, show (a == '*') = false from by simpa using ha]
  have htw : n.takeWhile isWordChar = n := by
    have := takeWhile_run isWordChar n hall [] (fun c hc => by simp at hc)
    simpa using this.1
  have hemp : n.isEmpty = false := by
    cases n with
    | nil => exact absurd rfl hne
    | cons a l => rfl
  simp only [parseVarSuffix, hstars, List.length_nil, List.drop_zero, htw, hemp,
    Bool.false_eq_true, if_false, List.drop_length]

/-- The greedy type/name split of `match_variable` on a reversed
`TYPE NAME` text: walking the reversed name meets no space, and at the
separating space the suffix parses as the bare name. -/
theorem parseVarRev_walk (cq : Bool) (T : List Char) (hT : T ≠ [])
    (n : List Char) (hn : wordish n = true) :
    ∀ (r s : List Char), (∀ c ∈ r, isWordChar c = true) → r.reverse ++ s = n →
      parseVarRev cq (r ++ ' ' :: T.reverse) s = some ⟨cq, ⟨T⟩, 0, none, ⟨n⟩⟩ := by
  intro r
  induction r with
  | nil =>
    intro s _ hs
    simp only [List.reverse_nil, List.nil_append] at hs
    subst hs
    simp only [List.nil_append, parseVarRev]
    rw [if_pos (by refine ⟨by trivial, by simpa using hT⟩), parseVarSuffix_word s hn]
    simp [List.reverse_reverse]
  | cons c r2 ih =>
    intro s hr hs
    have hc := hr c (by simp)
    simp only [List.cons_append, parseVarRev]
    rw [if_neg (fun hcon => (wordChar_ne c hc).2.1 hcon.1)]
    exact ih (c :: s) (fun x hx => hr x (by simp [hx]))
      (by simpa [List.append_assoc] using hs)

/-- `re.match(match_variable, ...)` on a plain `TYPE NAME` text. -/
theorem parseVariable_word (T n : List Char) (hT : wordish T = true) (hn : wordish n = true)
    (hconst : "const ".data.isPrefixOf (T ++ ' ' :: n) = false) :
    parseVariable ⟨T ++ ' ' :: n⟩ = some ⟨false, ⟨T⟩, 0, none, ⟨n⟩⟩ := by
  obtain ⟨hTne, hTall⟩ := wordish_spec T hT
  obtain ⟨-, hnall⟩ := wordish_spec n hn
  unfold parseVariable
  simp only [hconst, Bool.false_eq_true, if_false]
  show parseVarRev false ((T ++ ' ' :: n).reverse) [] = _
  have hrev : (T ++ ' ' :: n).reverse = n.reverse ++ ' ' :: T.reverse := by
    simp [List.reverse_append]
  rw [hrev]
  exact parseVarRev_walk false T hTne n hn n.reverse []
    (fun c hc => hnall c (by simpa using hc)) (by simp)

/-- `translate_type` on a bare word type with no pointers or extents is
the type-table lookup. -/
theorem translate_type_word (T : List Char) (h : ' ' ∉ T) :
    translate_type false ⟨T⟩ 0 none none = mapType ⟨T⟩ := by
  have h1 : pyReplace ⟨T⟩ " *const" "" = ⟨T⟩ := by
    show ⟨replaceFuel " *const".data "".data T.length T⟩ = (⟨T⟩ : String)
    rw [show " *const".data = ' ' :: "*const".data from rfl,
      replaceFuel_no_head ' ' "*const".data "".data T h T.length]
  have h2 : pyReplace ⟨T⟩ " * const" "" = ⟨T⟩ := by
    show ⟨replaceFuel " * const".data "".data T.length T⟩ = (⟨T⟩ : String)
    rw [show " * const".data = ' ' :: "* const".data from rfl,
      replaceFuel_no_head ' ' "* const".data "".data T h T.length]
  simp only [translate_type, h1, h2, iterPtr]

/-- The function-pointer pattern cannot match a text without a
parenthesis. -/
theorem parseFunctionPointer_word (T n : List Char) (hT : wordish T = true)
    (hn : wordish n = true) :
    parseFunctionPointer ⟨T ++ ' ' :: n⟩ = none := by
  obtain ⟨-, hTall⟩ := wordish_spec T hT
  obtain ⟨-, hnall⟩ := wordish_spec n hn
  have hnop : '(' ∉ T ++ ' ' :: n := by
    intro hm
    rcases List.mem_append.1 hm with h | h
    · exact (wordChar_ne '(' (hTall '(' h)).2.2.2.2.2.1 rfl
    · rcases List.mem_cons.1 h with h | h
      · exact absurd h (by decide)
      · exact (wordChar_ne '(' (hnall '(' h)).2.2.2.2.2.1 rfl
  have hidx : subIdx? " (SDLCALL *".data (T ++ ' ' :: n) = none := by
    refine subIdx?_none_intro _ _ (fun j hpre => ?_)
    rw [List.isPrefixOf_iff_prefix] at hpre
    have hmem : '(' ∈ (T ++ ' ' :: n).drop j := hpre.subset (by decide)
    exact hnop (List.mem_of_mem_drop hmem)
  unfold parseFunctionPointer
  rw [show (⟨T ++ ' ' :: n⟩ : String).data = T ++ ' ' :: n from rfl, hidx]

/-- `translate_field` on a plain undocumented `TYPE NAME` field. -/
theorem translate_field_word (T n : List Char) (hT : wordish T = true)
    (hn : wordish n = true)
    (hconst : "const ".data.isPrefixOf (T ++ ' ' :: n) = false) :
    translate_field none none ⟨T ++ ' ' :: n⟩
      = .ok ("    var " ++ snake_case ⟨n⟩ ++ ": " ++ mapType ⟨T⟩) := by
  have hsp : ' ' ∉ T := fun hm => (wordChar_ne ' ' ((wordish_spec T hT).2 ' ' hm)).2.1 rfl
  have hfp : translate_function_pointer ⟨T ++ ' ' :: n⟩ = .ok none := by
    unfold translate_function_pointer
    rw [parseFunctionPointer_word T n hT hn]
  unfold translate_field
  rw [hfp, except_bind_ok, parseVariable_word T n hT hn hconst]
  simp [translate_variable, translate_type_word T hsp, except_bind_ok,
    except_pure_eq_ok, format_docblock, String.append_assoc]

/-- One expanded `    TYPE NAME;` line through the field sub. -/
theorem fieldSubLine_word (T n : List Char) (hT : wordish T = true)
    (hn : wordish n = true)
    (hconst : "const ".data.isPrefixOf (T ++ ' ' :: n) = false) :
    fieldSubLine ("    ".data ++ ((T ++ ' ' :: n) ++ ';' :: ['\n']))
      = .ok (("    var " ++ snake_case ⟨n⟩ ++ ": " ++ mapType ⟨T⟩).data ++ ['\n']) := by
  obtain ⟨hTne, hTall⟩ := wordish_spec T hT
  obtain ⟨-, hnall⟩ := wordish_spec n hn
  have hnosemi : ';' ∉ T ++ ' ' :: n := by
    intro hm
    rcases List.mem_append.1 hm with h | h
    · exact (wordChar_ne ';' (hTall ';' h)).2.2.2.1 rfl
    · rcases List.mem_cons.1 h with h | h
      · exact absurd h (by decide)
      · exact (wordChar_ne ';' (hnall ';' h)).2.2.2.1 rfl
  unfold fieldSubLine
  rw [if_pos (by rw [List.isPrefixOf_iff_prefix]; exact List.prefix_append _ _)]
  have hd4 : ("    ".data ++ ((T ++ ' ' :: n) ++ ';' :: ['\n'])).drop 4
      = (T ++ ' ' :: n) ++ ';' :: ['\n'] := by
    rw [show (4 : Nat) = "    ".data.length from rfl]
    exact List.drop_left _ _
  rw [hd4]
  have htake : ((T ++ ' ' :: n) ++ ';' :: ['\n']).take (T ++ ' ' :: n).length
      = T ++ ' ' :: n := List.take_left _ _
  have hdrop : ((T ++ ' ' :: n) ++ ';' :: ['\n']).drop ((T ++ ' ' :: n).length + 1)
      = ['\n'] := by
    rw [show (T ++ ' ' :: n).length + 1 = ((T ++ ' ' :: n) ++ [';']).length from by simp [Nat.add_assoc],
      show (T ++ ' ' :: n) ++ ';' :: ['\n'] = ((T ++ ' ' :: n) ++ [';']) ++ ['\n'] from by simp]
    exact List.drop_left _ _
  simp only [subIdx?_single ';' (T ++ ' ' :: n) hnosemi ['\n']]
  rw [if_neg (by simp)]
  simp only [htake, hdrop]
  simp [List.dropWhile, translate_field_word T n hT hn hconst, except_bind_ok]

/-- A one-line multi-name field declaration `    TYPE n1, n2, ...;` as
the struct bodies hold it. -/
def renderMultiLine (T : List Char) (ns : List (List Char)) : String :=
  ⟨"    ".data ++ ((T ++ renderNamesTail ns) ++ ['\n'])⟩

/-- The expanded body `split_multifield` produces for such a line: one
`    TYPE n;` line per name, the trailing newline kept. -/
def expandedBody (T : List Char) (ns : List (List Char)) : String :=
  ⟨(ns.map (fun n => "    ".data ++ T ++ (' ' :: n) ++ ";\n".data)).flatten ++ ['\n']⟩

/-- The fields the field sub then emits: one `    var name: type` line
per name, sharing the translated type. -/
def expandedFields (T : List Char) (ns : List (List Char)) : String :=
  ⟨(ns.map (fun n =>
      ("    var " ++ snake_case ⟨n⟩ ++ ": " ++ mapType ⟨T⟩).data ++ ['\n'])).flatten
    ++ ['\n']⟩

/-- The multi-field sub expands a multi-name line into one declaration
per name. -/
theorem sub_multi_field_expanded (T : List Char) (hT : wordish T = true)
    (ns : List (List Char)) (hns : ∀ n ∈ ns, wordish n = true) (h2 : 2 ≤ ns.length) :
    sub_multi_field (renderMultiLine T ns) = expandedBody T ns := by
  obtain ⟨hTne, hTall⟩ := wordish_spec T hT
  have hnonl : ∀ x ∈ "    ".data ++ (T ++ renderNamesTail ns), x ≠ '\n' := by
    intro x hx hcon
    subst hcon
    rcases List.mem_append.1 hx with h | h
    · exact absurd h (by decide)
    · rcases List.mem_append.1 h with h | h
      · exact (wordChar_ne '\n' (hTall _ h)).2.2.2.2.1 rfl
      · rcases renderNamesTail_chars ns hns '\n' h with h | h | h | h
        · exact absurd h (by decide)
        · exact absurd h (by decide)
        · exact absurd h (by decide)
        · exact absurd h (by decide)
  have hdata : (renderMultiLine T ns).data
      = (["    ".data ++ (T ++ renderNamesTail ns)].map (· ++ ['\n'])).flatten := by
    simp [renderMultiLine]
  have hsplit : splitLines (renderMultiLine T ns).data
      = [("    ".data ++ (T ++ renderNamesTail ns)) ++ ['\n'], []] := by
    rw [hdata, splitLines_chunks _ (by
      intro ch hch
      rw [List.mem_singleton.1 hch]
      exact hnonl)]
    simp
  have hline : multiFieldSubLine (("    ".data ++ (T ++ renderNamesTail ns)) ++ ['\n'])
      = (ns.map (fun n => "    ".data ++ T ++ (' ' :: n) ++ ";\n".data)).flatten
        ++ ['\n'] := by
    have hsh : ("    ".data ++ (T ++ renderNamesTail ns)) ++ ['\n']
        = "    ".data ++ ((T ++ renderNamesTail ns) ++ ['\n']) := by simp
    rw [hsh]
    unfold multiFieldSubLine
    rw [if_pos (by rw [List.isPrefixOf_iff_prefix]; exact List.prefix_append _ _)]
    have hd4 : ("    ".data ++ ((T ++ renderNamesTail ns) ++ ['\n'])).drop 4
        = (T ++ renderNamesTail ns) ++ ['\n'] := by
      rw [show (4 : Nat) = "    ".data.length from rfl]
      exact List.drop_left _ _
    rw [hd4, multiSplitFuel_render ns hns h2 ['\n'] T hTall [] (Or.inr hTne) _
      (by simp only [List.length_append, List.length_cons]; omega)]
    simp only [List.reverse_nil, List.nil_append, split_multifield,
      multiNamesFuel_render ns hns _ (renderNamesTail_length ns)]
  unfold sub_multi_field
  rw [hsplit]
  simp only [List.map_cons, List.map_nil, List.flatten_cons, List.flatten_nil, hline,
    show multiFieldSubLine [] = [] from rfl]
  simp [expandedBody]

/-- The field sub turns each expanded line into its own field with the
shared type. -/
theorem sub_fields_expanded (T : List Char) (hT : wordish T = true)
    (ns : List (List Char)) (hns : ∀ n ∈ ns, wordish n = true)
    (hconst : ∀ n ∈ ns, "const ".data.isPrefixOf (T ++ ' ' :: n) = false) :
    sub_fields (expandedBody T ns) = .ok (expandedFields T ns) := by
  obtain ⟨hTne, hTall⟩ := wordish_spec T hT
  have hnonl : ∀ n ∈ ns, ∀ x ∈ "    ".data ++ ((T ++ ' ' :: n) ++ [';']), x ≠ '\n' := by
    intro n hn x hx hcon
    subst hcon
    obtain ⟨-, hnall⟩ := wordish_spec n (hns n hn)
    rcases List.mem_append.1 hx with h | h
    · exact absurd h (by decide)
    · rcases List.mem_append.1 h with h | h
      · rcases List.mem_append.1 h with h | h
        · exact (wordChar_ne '\n' (hTall _ h)).2.2.2.2.1 rfl
        · rcases List.mem_cons.1 h with h | h
          · exact absurd h (by decide)
          · exact (wordChar_ne '\n' (hnall _ h)).2.2.2.2.1 rfl
      · exact absurd h (by decide)
  have hdata : (expandedBody T ns).data
      = ((ns.map (fun n => "    ".data ++ ((T ++ ' ' :: n) ++ [';'])) ++ [[]]).map
          (· ++ ['\n'])).flatten := by
    simp only [expandedBody, List.map_append, List.map_map, List.map_cons, List.map_nil,
      List.flatten_append, List.flatten_cons, List.flatten_nil]
    have hfun : (fun n => (fun l => l ++ ['\n'])
          ("    ".data ++ ((T ++ ' ' :: n) ++ [';'])))
        = (fun n : List Char => "    ".data ++ T ++ (' ' :: n) ++ ";\n".data) := by
      funext n
      show ("    ".data ++ ((T ++ ' ' :: n) ++ [';'])) ++ ['\n'] = _
      simp [List.append_assoc]
    rw [Function.comp_def, hfun]
    simp
  have hsplit : splitLines (expandedBody T ns).data
      = ns.map (fun n => ("    ".data ++ ((T ++ ' ' :: n) ++ [';'])) ++ ['\n'])
        ++ [['\n'], []] := by
    rw [hdata, splitLines_chunks _ (by
      intro ch hch
      rcases List.mem_append.1 hch with h | h
      · obtain ⟨n, hn, rfl⟩ := List.mem_map.1 h
        exact hnonl n hn
      · rw [List.mem_singleton.1 h]
        intro x hx
        exact absurd hx (by simp))]
    simp [Function.comp_def]
  have hlines : ∀ n ∈ ns,
      fieldSubLine (("    ".data ++ ((T ++ ' ' :: n) ++ [';'])) ++ ['\n'])
        = .ok (("    var " ++ snake_case ⟨n⟩ ++ ": " ++ mapType ⟨T⟩).data ++ ['\n']) := by
    intro n hn
    have hsh : ("    ".data ++ ((T ++ ' ' :: n) ++ [';'])) ++ ['\n']
        = "    ".data ++ ((T ++ ' ' :: n) ++ ';' :: ['\n']) := by simp
    rw [hsh]
    exact fieldSubLine_word T n hT (hns n hn) (hconst n hn)
  have hmapM : (ns.map (fun n => ("    ".data ++ ((T ++ ' ' :: n) ++ [';'])) ++ ['\n'])
        ++ [['\n'], []]).mapM fieldSubLine
      = .ok (ns.map (fun n =>
          ("    var " ++ snake_case ⟨n⟩ ++ ": " ++ mapType ⟨T⟩).data ++ ['\n'])
        ++ [['\n'], []]) := by
    refine mapM_append_ok fieldSubLine _ _ _ _ ?_ (by decide)
    exact mapM_map_ok fieldSubLine _ _ ns hlines
  unfold sub_fields
  rw [hsplit, hmapM, except_bind_ok]
  simp [expandedFields]

/-- C8: corrected form.  Only the typedef-struct translation expands a
one-line multi-name field declaration: `split_multifield` rewrites
`    TYPE n1, .., nk;` into one `    TYPE ni;` line per name, the field
sub then emits one `var` field per name with the shared translated type,
and `translate_typedef_struct` (away from its two special-cased names)
embeds exactly these per-name fields in its output.  (The plain
`translate_struct` skips the expansion — the claim's "every struct"
part fails, see the counterexample.) -/
theorem C8_typedef_multifield_expansion (T : List Char) (hT : wordish T = true)
    (ns : List (List Char)) (hns : ∀ n ∈ ns, wordish n = true) (h2 : 2 ≤ ns.length)
    (hconst : ∀ n ∈ ns, "const ".data.isPrefixOf (T ++ ' ' :: n) = false)
    (name : String) (hgp : name ≠ "SDL_GamepadBinding")
    (hsi : name ≠ "SDL_StorageInterface") :
    sub_multi_field (renderMultiLine T ns) = expandedBody T ns
    ∧ sub_fields (expandedBody T ns) = .ok (expandedFields T ns)
    ∧ translate_typedef_struct none name (renderMultiLine T ns)
        = .ok ("\n@value\nstruct " ++ name ++ ":\n    " ++ doc_template none name "    "
          ++ "\n    \n" ++ expandedFields T ns ++ "\n") := by
  refine ⟨sub_multi_field_expanded T hT ns hns h2,
    sub_fields_expanded T hT ns hns hconst, ?_⟩
  unfold translate_typedef_struct
  rw [show format_docblock none = Except.ok none from rfl, except_bind_ok, if_neg hgp]
  simp only [sub_multi_field_expanded T hT ns hns h2,
    sub_fields_expanded T hT ns hns hconst, except_bind_ok, if_neg hsi]

/-- C8 witness: the `Uint8 x, y;` line expands into separate `x` and `y`
fields of type `UInt8`. -/
theorem C8_typedef_multifield_expansion_witness :
    sub_multi_field (renderMultiLine "Uint8".data ["x".data, "y".data])
      = expandedBody "Uint8".data ["x".data, "y".data]
    ∧ sub_fields (expandedBody "Uint8".data ["x".data, "y".data])
      = .ok (expandedFields "Uint8".data ["x".data, "y".data])
    ∧ translate_typedef_struct none "SDL_T" (renderMultiLine "Uint8".data ["x".data, "y".data])
      = .ok ("\n@value\nstruct " ++ "SDL_T" ++ ":\n    " ++ doc_template none "SDL_T" "    "
        ++ "\n    \n" ++ expandedFields "Uint8".data ["x".data, "y".data] ++ "\n") :=
  C8_typedef_multifield_expansion "Uint8".data (by decide) ["x".data, "y".data]
    (by decide) (by decide) (by decide) "SDL_T" (by decide) (by decide)
